import Mathlib

/-!
Verification of the gas-network max-flow program (src/main.py).

The program builds a directed graph with node/edge capacities using
networkx, reduces it to a pure edge-capacitated network by node
splitting, runs a maximum-flow solver, and reports per-sink delivery.

We model the used fragment of `networkx.DiGraph` (insertion-ordered
nodes and edges, attribute dictionaries, implicit node creation on
`add_edge`), transcribe the two graph-building functions of the source,
and model the external maximum-flow solver from the specification
(shortest augmenting path / Edmonds-Karp over a residual graph).
-/

/-- Attribute dictionary of a node, covering the attributes the program
uses.  A `none` field models an absent dictionary key. -/
structure NodeAttrs where
  kind : Option String := none
  node_capacity : Option Int := none
  production_capacity : Option Int := none
  demand : Option Int := none
  original : Option String := none
  role : Option String := none
deriving Repr, DecidableEq

/-- Model of `networkx.DiGraph` as used by the program: nodes and edges
are kept in insertion order; an edge stores its optional `capacity`
attribute. -/
structure DiGraph where
  nodes : List (String × NodeAttrs)
  edges : List (String × String × Option Int)
deriving Repr, DecidableEq

def DiGraph.empty : DiGraph := ⟨[], []⟩

def DiGraph.hasNode (g : DiGraph) (n : String) : Bool :=
  g.nodes.any (fun p => p.1 == n)

def DiGraph.hasEdge (g : DiGraph) (u v : String) : Bool :=
  g.edges.any (fun e => e.1 == u && e.2.1 == v)

/-- `G.add_node(n, **attrs)`: inserts the node, or overwrites its
attributes if it is already present. -/
def DiGraph.add_node (g : DiGraph) (n : String) (a : NodeAttrs) : DiGraph :=
  if g.hasNode n then
    { g with nodes := g.nodes.map (fun p => if p.1 == n then (n, a) else p) }
  else
    { g with nodes := g.nodes ++ [(n, a)] }

/-- `G.add_edge(u, v, capacity=c)`: networkx semantics — endpoints that
are not yet declared are created implicitly with empty attributes, and
an existing edge has its attributes overwritten. -/
def DiGraph.add_edge (g : DiGraph) (u v : String) (c : Option Int) : DiGraph :=
  let g1 := if g.hasNode u then g else { g with nodes := g.nodes ++ [(u, {})] }
  let g2 := if g1.hasNode v then g1 else { g1 with nodes := g1.nodes ++ [(v, {})] }
  if g2.hasEdge u v then
    { g2 with edges := g2.edges.map (fun e => if e.1 == u && e.2.1 == v then (u, v, c) else e) }
  else
    { g2 with edges := g2.edges ++ [(u, v, c)] }

/-- Transcription of `build_random_gas_network` (src/main.py lines 4-55). -/
def build_random_gas_network : DiGraph :=
  let g := DiGraph.empty
  let g := g.add_node "src_0"
    { kind := some "source", node_capacity := some 12000,
      production_capacity := some 10000 }
  let g := g.add_node "src_1"
    { kind := some "source", node_capacity := some 10000,
      production_capacity := some 7000 }
  let g := g.add_node "mid_0" { kind := some "intermediate", node_capacity := some 9000 }
  let g := g.add_node "mid_1" { kind := some "intermediate", node_capacity := some 9000 }
  let g := g.add_node "mid_2" { kind := some "intermediate", node_capacity := some 9000 }
  let g := g.add_node "sink_0" { kind := some "sink", node_capacity := some 7000, demand := some 6000 }
  let g := g.add_node "sink_1" { kind := some "sink", node_capacity := some 8000, demand := some 7000 }
  let g := g.add_node "sink_2" { kind := some "sink", node_capacity := some 8000, demand := some 5000 }
  let g := g.add_edge "src_0" "mid_0" (some 8000)
  let g := g.add_edge "src_0" "mid_1" (some 6000)
  let g := g.add_edge "src_1" "mid_1" (some 5000)
  let g := g.add_edge "src_1" "mid_2" (some 7000)
  let g := g.add_edge "mid_0" "mid_2" (some 4000)
  let g := g.add_edge "mid_0" "sink_0" (some 5000)
  let g := g.add_edge "mid_1" "sink_0" (some 3000)
  let g := g.add_edge "mid_1" "sink_1" (some 6000)
  let g := g.add_edge "mid_2" "sink_1" (some 4000)
  let g := g.add_edge "mid_2" "sink_2" (some 8000)
  g

def super_source : String := "super_source"

def super_sink : String := "super_sink"

def in_name (n : String) : String := n ++ "_in"

def out_name (n : String) : String := n ++ "_out"

/-- First loop of `build_flow_network_with_node_capacities`: split each
node `n` into `n_in -> n_out` with the node's capacity, raising
`ValueError` when `node_capacity` is absent. -/
def addSplitNodes : DiGraph → List (String × NodeAttrs) → Except String DiGraph
  | F, [] => .ok F
  | F, (n, data) :: rest =>
    match data.node_capacity with
    | none => .error ("Node " ++ n ++ " missing node_capacity")
    | some node_cap =>
      addSplitNodes
        (((F.add_node (in_name n) { original := some n, role := some "in" }).add_node
            (out_name n) { original := some n, role := some "out" }).add_edge
          (in_name n) (out_name n) (some node_cap))
        rest

/-- Second loop: transcribe each original edge `(u,v)` as
`u_out -> v_in`, raising `ValueError` when `capacity` is absent. -/
def addTranscribed : DiGraph → List (String × String × Option Int) → Except String DiGraph
  | F, [] => .ok F
  | F, (u, v, capAttr) :: rest =>
    match capAttr with
    | none => .error ("Edge (" ++ u ++ ", " ++ v ++ ") missing capacity")
    | some cap =>
      addTranscribed (F.add_edge (out_name u) (in_name v) (some cap)) rest

/-- Third loop: connect the super source to every source's `n_in` with
the source's production capacity. -/
def addInjection : DiGraph → List (String × NodeAttrs) → Except String DiGraph
  | F, [] => .ok F
  | F, (n, data) :: rest =>
    if data.kind == some "source" then
      match data.production_capacity with
      | none => .error ("Source node " ++ n ++ " missing production_capacity")
      | some prod_cap =>
        addInjection (F.add_edge super_source (in_name n) (some prod_cap)) rest
    else
      addInjection F rest

/-- Fourth loop: connect every sink's `n_out` to the super sink with the
sink's demand. -/
def addExtraction : DiGraph → List (String × NodeAttrs) → Except String DiGraph
  | F, [] => .ok F
  | F, (n, data) :: rest =>
    if data.kind == some "sink" then
      match data.demand with
      | none => .error ("Sink node " ++ n ++ " missing demand")
      | some demand =>
        addExtraction (F.add_edge (out_name n) super_sink (some demand)) rest
    else
      addExtraction F rest

/-- Transcription of `build_flow_network_with_node_capacities`
(src/main.py lines 58-107).  `Except.error` models the raised
`ValueError`. -/
def build_flow_network_with_node_capacities (base_graph : DiGraph) :
    Except String DiGraph := do
  let F0 := (DiGraph.empty.add_node super_source {}).add_node super_sink {}
  let F1 ← addSplitNodes F0 base_graph.nodes
  let F2 ← addTranscribed F1 base_graph.edges
  let F3 ← addInjection F2 base_graph.nodes
  addExtraction F3 base_graph.nodes

/-- A flow assignment: amount of flow on each ordered pair of nodes. -/
abbrev FlowAssign := String → String → Nat

/-- An edge-capacitated network: vertex list plus capacitated arcs. -/
structure FlowNet where
  verts : List String
  arcs : List (String × String × Nat)
deriving Repr

/-- The reduced networkx graph viewed as a capacitated network; an edge
without a `capacity` attribute never occurs in a reduced graph. -/
def DiGraph.toFlowNet (g : DiGraph) : FlowNet :=
  { verts := g.nodes.map Prod.fst,
    arcs := g.edges.filterMap (fun e => e.2.2.map (fun c => (e.1, e.2.1, c.toNat))) }

/-- Total capacity of the arcs from `u` to `v`. -/
def FlowNet.cap (N : FlowNet) (u v : String) : Nat :=
  ((N.arcs.filter (fun a => a.1 == u && a.2.1 == v)).map (fun a => a.2.2)).sum

/-- Modelled from the spec: remaining residual capacity from `u` to `v`
(unused forward capacity plus cancellable backward flow), as in
specification section 3 (Residual Graph). -/
def resid (N : FlowNet) (f : FlowAssign) (u v : String) : Nat :=
  (N.cap u v - f u v) + f v u

/-- Residual successors of `u`: vertices reachable by one residual arc
of positive remaining capacity. -/
def rsuccs (N : FlowNet) (f : FlowAssign) (u : String) : List String :=
  N.verts.filter (fun v => decide (0 < resid N f u v))

/-- Modelled from the spec: breadth-first search for an augmenting path,
the path-finding step of the Edmonds-Karp solver that the program
invokes as `networkx.maximum_flow`.  The queue holds reversed paths
(current vertex first); `visited` holds every vertex ever enqueued. -/
def bfsAug (N : FlowNet) (f : FlowAssign) (t : String) :
    Nat → List (List String) → List String → Option (List String)
  | _, [], _ => none
  | 0, _ :: _, _ => none
  | fuel + 1, p :: queue, visited =>
    match p with
    | [] => none
    | x :: _ =>
      if x = t then some p.reverse
      else
        let ns := (rsuccs N f x).filter (fun y => decide (y ∉ visited))
        bfsAug N f t fuel (queue ++ ns.map (fun y => y :: p)) (visited ++ ns)

/-- Run the breadth-first search from `s`. -/
def findAugPath (N : FlowNet) (f : FlowAssign) (s t : String) : Option (List String) :=
  bfsAug N f t (N.verts.length + 2) [[s]] [s]

/-- Consecutive pairs of a path. -/
def pathPairs : List String → List (String × String)
  | a :: b :: rest => (a, b) :: pathPairs (b :: rest)
  | _ => []

/-- Modelled from the spec: bottleneck of an augmenting path, the
minimum residual capacity along its arcs. -/
def bottleneck (N : FlowNet) (f : FlowAssign) (p : List String) : Nat :=
  match (pathPairs p).map (fun e => resid N f e.1 e.2) with
  | [] => 0
  | r :: rs => rs.foldl min r

/-- Push `d` units across the single residual arc from `a` to `b`:
first cancel backward flow, then add forward flow. -/
def pushFlow (f : FlowAssign) (a b : String) (d : Nat) : FlowAssign :=
  fun u v =>
    if u = b ∧ v = a then f b a - min d (f b a)
    else if u = a ∧ v = b then f a b + (d - min d (f b a))
    else f u v

/-- Modelled from the spec: push `d` units of flow along every arc of an
augmenting path. -/
def augment : FlowAssign → List String → Nat → FlowAssign
  | f, a :: b :: rest, d => augment (pushFlow f a b d) (b :: rest) d
  | f, _, _ => f

/-- Modelled from the spec: the augmenting loop of the Edmonds-Karp
solver.  Each iteration searches for an augmenting path and pushes its
bottleneck; the loop stops when no augmenting path exists. -/
def ekLoop (N : FlowNet) (s t : String) : Nat → FlowAssign → FlowAssign
  | 0, f => f
  | fuel + 1, f =>
    match findAugPath N f s t with
    | none => f
    | some p =>
      let d := bottleneck N f p
      if d = 0 then f else ekLoop N s t fuel (augment f p d)

/-- Sum of all arc capacities; an upper bound on any flow value and
hence on the number of augmentations. -/
def FlowNet.capSum (N : FlowNet) : Nat :=
  (N.arcs.map (fun a => a.2.2)).sum

/-- Sum of flow entering `x` from the network's vertices. -/
def inflow (N : FlowNet) (f : FlowAssign) (x : String) : Nat :=
  (N.verts.map (fun u => f u x)).sum

/-- Sum of flow leaving `x` toward the network's vertices. -/
def outflow (N : FlowNet) (f : FlowAssign) (x : String) : Nat :=
  (N.verts.map (fun v => f x v)).sum

/-- Net flow out of `x`; the flow value when `x` is the source. -/
def netOut (N : FlowNet) (f : FlowAssign) (x : String) : Int :=
  (outflow N f x : Int) - (inflow N f x : Int)

/-- Modelled from the spec: the maximum-flow solver called as
`networkx.maximum_flow(flow_graph, super_source, super_sink)`.  Returns
the flow value and the flow assignment. -/
def maximum_flow (N : FlowNet) (s t : String) : Int × FlowAssign :=
  let f := ekLoop N s t (N.capSum + 1) (fun _ _ => 0)
  (netOut N f s, f)

/-- The demo pipeline up to the solver (src/main.py lines 110-119):
build the reduced network from the base graph and solve it. -/
def solve_base (B : DiGraph) : Except String (Int × FlowAssign) :=
  (build_flow_network_with_node_capacities B).map
    (fun F => maximum_flow F.toFlowNet super_source super_sink)

/-- FlowAssign value of the demo pipeline. -/
def demo_flow_value (B : DiGraph) : Except String Int :=
  (solve_base B).map Prod.fst

/-- Per-sink rows of the demo report (src/main.py lines 131-139):
`(sink, demand, delivered, shortfall)` with
`delivered = flow_dict[sink_out][super_sink]` and
`shortfall = max(0, demand - delivered)`. -/
def demo_sink_rows (B : DiGraph) : Except String (List (String × Int × Int × Int)) :=
  (solve_base B).map (fun r =>
    (B.nodes.filter (fun p => p.2.kind == some "sink")).map (fun p =>
      let demand : Int := p.2.demand.getD 0
      let delivered : Int := (r.2 (out_name p.1) super_sink : Nat)
      (p.1, demand, delivered, max 0 (demand - delivered))))

/-- Names of the graph's nodes, in insertion order. -/
def nodeNames (g : DiGraph) : List String := g.nodes.map Prod.fst

/-- Endpoint pairs of the graph's edges, in insertion order. -/
def edgeKeys (g : DiGraph) : List (String × String) :=
  g.edges.map (fun e => (e.1, e.2.1))

/-- Expected reduced nodes produced by the node-splitting loop. -/
def splitNodes (ns : List (String × NodeAttrs)) : List (String × NodeAttrs) :=
  ns.flatMap (fun p =>
    [(in_name p.1, { original := some p.1, role := some "in" }),
     (out_name p.1, { original := some p.1, role := some "out" })])

/-- Expected internal edges `n_in -> n_out` with the node capacities. -/
def internalEdges (ns : List (String × NodeAttrs)) : List (String × String × Option Int) :=
  ns.map (fun p => (in_name p.1, out_name p.1, p.2.node_capacity))

/-- Expected transcribed edges `u_out -> v_in` with the edge capacities. -/
def transEdges (es : List (String × String × Option Int)) :
    List (String × String × Option Int) :=
  es.map (fun e => (out_name e.1, in_name e.2.1, e.2.2))

/-- Expected injection edges `super_source -> n_in` for the sources. -/
def injEdges (ns : List (String × NodeAttrs)) : List (String × String × Option Int) :=
  (ns.filter (fun p => p.2.kind == some "source")).map
    (fun p => (super_source, in_name p.1, p.2.production_capacity))

/-- Expected extraction edges `n_out -> super_sink` for the sinks. -/
def extEdges (ns : List (String × NodeAttrs)) : List (String × String × Option Int) :=
  (ns.filter (fun p => p.2.kind == some "sink")).map
    (fun p => (out_name p.1, super_sink, p.2.demand))

/-- Wellformedness invariants every graph built through the
`networkx.DiGraph` interface satisfies: node names are unique, edge
keys are unique, and edge endpoints are declared nodes. -/
def WFBase (B : DiGraph) : Prop :=
  (nodeNames B).Nodup ∧ (edgeKeys B).Nodup ∧
  (∀ e ∈ B.edges, e.1 ∈ nodeNames B ∧ e.2.1 ∈ nodeNames B)

/-- The attribute conditions checked by the transformer: every node has
a `node_capacity`, every edge a `capacity`, every source a
`production_capacity`, every sink a `demand`. -/
def AttrsOK (B : DiGraph) : Prop :=
  (∀ p ∈ B.nodes, p.2.node_capacity.isSome) ∧
  (∀ e ∈ B.edges, e.2.2.isSome) ∧
  (∀ p ∈ B.nodes, p.2.kind = some "source" → p.2.production_capacity.isSome) ∧
  (∀ p ∈ B.nodes, p.2.kind = some "sink" → p.2.demand.isSome)

/-- Nodes of the expected reduced graph. -/
def redNodes (B : DiGraph) : List (String × NodeAttrs) :=
  (super_source, {}) :: (super_sink, {}) :: splitNodes B.nodes

/-- Edges of the expected reduced graph: internal, transcribed,
injection and extraction edges, in the order the transformer adds
them. -/
def redEdges (B : DiGraph) : List (String × String × Option Int) :=
  internalEdges B.nodes ++ transEdges B.edges ++ injEdges B.nodes ++ extEdges B.nodes

/-- A base graph whose nodes all carry `node_capacity` but whose single
edge was added without a `capacity` attribute. -/
def exMissingEdgeCap : DiGraph :=
  ((DiGraph.empty.add_node "a" { node_capacity := some 1 }).add_node "b"
    { node_capacity := some 1 }).add_edge "a" "b" none

/-- An edge insertion on a fresh graph with an unknown endpoint and a
negative capacity. -/
def exAutoCreate : DiGraph := DiGraph.empty.add_edge "a" "b" (some (-5))

/-- A network whose capacities exceed the unsigned 64-bit range. -/
def exHugeCaps : DiGraph :=
  (((DiGraph.empty.add_node "s"
    { kind := some "source", node_capacity := some (2 ^ 64),
      production_capacity := some (2 ^ 64) }).add_node "k"
    { kind := some "sink", node_capacity := some (2 ^ 64),
      demand := some (2 ^ 64) }).add_edge "s" "k" (some (2 ^ 64)))

/-- Invariant of a stored (reversed) queue path: nonempty, ends at the
search root, simple, residual-positive along its arcs, and inside the
vertex set except possibly for the root. -/
def GoodStored (N : FlowNet) (f : FlowAssign) (s : String) (p : List String) : Prop :=
  p ≠ [] ∧ p.getLast? = some s ∧ p.Nodup ∧
  List.Chain' (fun c d => 0 < resid N f d c) p ∧
  (∀ x ∈ p, x = s ∨ x ∈ N.verts)

/-- Properties of a returned augmenting path. -/
def GoodPath (N : FlowNet) (f : FlowAssign) (s t : String) (p : List String) : Prop :=
  p.head? = some s ∧ p.getLast? = some t ∧ p.Nodup ∧
  List.Chain' (fun a b => 0 < resid N f a b) p ∧
  (∀ x ∈ p, x = s ∨ x ∈ N.verts)

/-- A flow assignment respecting every capacity (including the zero
capacity of non-edges, so the flow is supported on the arcs). -/
def Feasible (N : FlowNet) (f : FlowAssign) : Prop :=
  ∀ u v, f u v ≤ N.cap u v

/-- Conversion applied by `DiGraph.toFlowNet` to a stored edge. -/
def arcConv (e : String × String × Option Int) : Option (String × String × Nat) :=
  e.2.2.map (fun c => (e.1, e.2.1, c.toNat))

/-- A list of vertices closed under residual steps, containing the
source and avoiding the sink: the reachable side of a saturated cut. -/
def ResidClosed (N : FlowNet) (f : FlowAssign) (s t : String) (R : List String) : Prop :=
  s ∈ R ∧ t ∉ R ∧ (∀ x ∈ R, x ∈ N.verts) ∧
  (∀ x ∈ R, ∀ y ∈ rsuccs N f x, y ∈ R)

/-- The vertex set as a finite set. -/
def Vfin (N : FlowNet) : Finset String := N.verts.toFinset

/-- Total capacity of the arcs crossing from `S` to its complement. -/
def capAcross (N : FlowNet) (S : Finset String) : Int :=
  Finset.sum S (fun x => Finset.sum (Vfin N \ S) (fun y => (N.cap x y : Int)))

/-- Pointwise order on optional capacities: equal absence, or both
present and ordered. -/
def optLe (o o' : Option Int) : Prop :=
  (o = none ∧ o' = none) ∨ (∃ c c', o = some c ∧ o' = some c' ∧ c ≤ c')

/-- Relation between a base node and its capacity-bumped version. -/
def NodeRel (p p' : String × NodeAttrs) : Prop :=
  p.1 = p'.1 ∧ p.2.kind = p'.2.kind ∧
  optLe p.2.node_capacity p'.2.node_capacity ∧
  optLe p.2.production_capacity p'.2.production_capacity ∧
  optLe p.2.demand p'.2.demand

/-- Relation between corresponding edges (reduced or base). -/
def EdgeRel (e e' : String × String × Option Int) : Prop :=
  e.1 = e'.1 ∧ e.2.1 = e'.2.1 ∧ optLe e.2.2 e'.2.2

/-- Base graphs with identical structure whose capacities only grew. -/
def BaseLe (B B' : DiGraph) : Prop :=
  List.Forall₂ NodeRel B.nodes B'.nodes ∧ List.Forall₂ EdgeRel B.edges B'.edges

/-- Relation between corresponding converted arcs. -/
def ArcRel (a a' : String × String × Nat) : Prop :=
  a.1 = a'.1 ∧ a.2.1 = a'.2.1 ∧ a.2.2 ≤ a'.2.2

/-- Increase the capacity of the single edge `(u,v)` by `δ`. -/
def bump_edge_capacity (B : DiGraph) (u v : String) (δ : Nat) : DiGraph :=
  { B with edges := B.edges.map (fun e =>
      if e.1 = u ∧ e.2.1 = v then (e.1, e.2.1, e.2.2.map (fun c => c + δ)) else e) }

/-- Increase the `node_capacity` of the single node `n` by `δ`. -/
def bump_node_capacity (B : DiGraph) (n : String) (δ : Nat) : DiGraph :=
  { B with nodes := B.nodes.map (fun p =>
      if p.1 = n then
        (p.1, { p.2 with node_capacity := p.2.node_capacity.map (fun c => c + δ) })
      else p) }

/-- Increase the `production_capacity` of the single node `n` by `δ`. -/
def bump_production_capacity (B : DiGraph) (n : String) (δ : Nat) : DiGraph :=
  { B with nodes := B.nodes.map (fun p =>
      if p.1 = n then
        (p.1, { p.2 with production_capacity :=
          p.2.production_capacity.map (fun c => c + δ) })
      else p) }

/-- Increase the `demand` of the single node `n` by `δ`. -/
def bump_demand (B : DiGraph) (n : String) (δ : Nat) : DiGraph :=
  { B with nodes := B.nodes.map (fun p =>
      if p.1 = n then
        (p.1, { p.2 with demand := p.2.demand.map (fun c => c + δ) })
      else p) }

/-!
## Theorems: naming lemmas, transformer characterization, solver
invariants, max-flow/min-cut, and the claim theorems
-/

theorem in_name_getLast (n : String) : (in_name n).data.getLast? = some 'n' := by
  show ((n ++ "_in").data).getLast? = some 'n'
  rw [String.data_append, List.getLast?_append]
  rfl

theorem out_name_getLast (n : String) : (out_name n).data.getLast? = some 't' := by
  show ((n ++ "_out").data).getLast? = some 't'
  rw [String.data_append, List.getLast?_append]
  rfl

theorem in_name_inj {a b : String} (h : in_name a = in_name b) : a = b := by
  have hd : a.data ++ "_in".data = b.data ++ "_in".data := by
    rw [← String.data_append a "_in", ← String.data_append b "_in"]
    exact congrArg String.data h
  exact String.ext (List.append_cancel_right hd)

theorem out_name_inj {a b : String} (h : out_name a = out_name b) : a = b := by
  have hd : a.data ++ "_out".data = b.data ++ "_out".data := by
    rw [← String.data_append a "_out", ← String.data_append b "_out"]
    exact congrArg String.data h
  exact String.ext (List.append_cancel_right hd)

theorem in_name_ne_out_name (a b : String) : in_name a ≠ out_name b := by
  intro h
  have := congrArg (fun s => s.data.getLast?) h
  simp only [in_name_getLast, out_name_getLast] at this
  exact absurd this (by decide)

theorem super_source_ne_in_name (a : String) : super_source ≠ in_name a := by
  intro h
  have := congrArg (fun s => s.data.getLast?) h
  simp only [in_name_getLast] at this
  exact absurd this (by decide)

theorem super_source_ne_out_name (a : String) : super_source ≠ out_name a := by
  intro h
  have := congrArg (fun s => s.data.getLast?) h
  simp only [out_name_getLast] at this
  exact absurd this (by decide)

theorem super_sink_ne_in_name (a : String) : super_sink ≠ in_name a := by
  intro h
  have := congrArg (fun s => s.data.getLast?) h
  simp only [in_name_getLast] at this
  exact absurd this (by decide)

theorem super_sink_ne_out_name (a : String) : super_sink ≠ out_name a := by
  intro h
  have := congrArg (fun s => s.data.getLast?) h
  simp only [out_name_getLast] at this
  exact absurd this (by decide)

theorem super_source_ne_super_sink : super_source ≠ super_sink := by decide

theorem hasNode_iff {g : DiGraph} {n : String} :
    g.hasNode n = true ↔ n ∈ nodeNames g := by
  simp [DiGraph.hasNode, nodeNames, List.any_eq_true, List.mem_map]

theorem hasEdge_iff {g : DiGraph} {u v : String} :
    g.hasEdge u v = true ↔ (u, v) ∈ edgeKeys g := by
  simp [DiGraph.hasEdge, edgeKeys, List.any_eq_true, List.mem_map]

theorem add_node_of_not_mem {g : DiGraph} {n : String} {a : NodeAttrs}
    (h : n ∉ nodeNames g) :
    g.add_node n a = { nodes := g.nodes ++ [(n, a)], edges := g.edges } := by
  unfold DiGraph.add_node
  rw [if_neg]
  intro hc
  exact h (hasNode_iff.mp hc)

theorem add_edge_of_mem {g : DiGraph} {u v : String} {c : Option Int}
    (hu : u ∈ nodeNames g) (hv : v ∈ nodeNames g) (hk : (u, v) ∉ edgeKeys g) :
    g.add_edge u v c = { nodes := g.nodes, edges := g.edges ++ [(u, v, c)] } := by
  have hu' : g.hasNode u = true := hasNode_iff.mpr hu
  have hv' : g.hasNode v = true := hasNode_iff.mpr hv
  have hk' : g.hasEdge u v = false := by
    cases hc : g.hasEdge u v
    · rfl
    · exact absurd (hasEdge_iff.mp hc) hk
  simp [DiGraph.add_edge, hu', hv', hk']

theorem addSplitNodes_char (l : List (String × NodeAttrs)) :
    ∀ (F : DiGraph),
    (∀ p ∈ l, p.2.node_capacity.isSome) →
    (∀ p ∈ l, in_name p.1 ∉ nodeNames F ∧ out_name p.1 ∉ nodeNames F) →
    (l.map Prod.fst).Nodup →
    (∀ p ∈ l, (in_name p.1, out_name p.1) ∉ edgeKeys F) →
    addSplitNodes F l =
      .ok { nodes := F.nodes ++ splitNodes l, edges := F.edges ++ internalEdges l } := by
  induction l with
  | nil =>
    intro F _ _ _ _
    simp [addSplitNodes, splitNodes, internalEdges]
  | cons hd tl ih =>
    intro F hattr hfresh hnd hkeys
    obtain ⟨n, d⟩ := hd
    obtain ⟨c, hc⟩ := Option.isSome_iff_exists.mp (hattr (n, d) (List.mem_cons_self _ _))
    have hinF : in_name n ∉ nodeNames F := (hfresh _ (List.mem_cons_self _ _)).1
    have houtF : out_name n ∉ nodeNames F := (hfresh _ (List.mem_cons_self _ _)).2
    set a1 : NodeAttrs := { original := some n, role := some "in" } with ha1
    set a2 : NodeAttrs := { original := some n, role := some "out" } with ha2
    set F1 : DiGraph := { nodes := F.nodes ++ [(in_name n, a1)], edges := F.edges } with hF1
    set F2 : DiGraph :=
      { nodes := F.nodes ++ [(in_name n, a1), (out_name n, a2)], edges := F.edges } with hF2
    set F3 : DiGraph :=
      { nodes := F.nodes ++ [(in_name n, a1), (out_name n, a2)],
        edges := F.edges ++ [(in_name n, out_name n, some c)] } with hF3
    have h1 : F.add_node (in_name n) a1 = F1 := add_node_of_not_mem hinF
    have houtF1 : out_name n ∉ nodeNames F1 := by
      simp only [hF1, nodeNames, List.map_append, List.mem_append] at houtF ⊢
      rintro (h | h)
      · exact houtF h
      · simp at h
        exact (in_name_ne_out_name n n) h.symm
    have h2 : F1.add_node (out_name n) a2 = F2 := by
      rw [add_node_of_not_mem houtF1]
      simp [hF1, hF2]
    have hinF2 : in_name n ∈ nodeNames F2 := by
      simp [hF2, nodeNames, List.map_append]
    have houtF2 : out_name n ∈ nodeNames F2 := by
      simp [hF2, nodeNames, List.map_append]
    have hkeyF2 : (in_name n, out_name n) ∉ edgeKeys F2 := by
      simpa [hF2, edgeKeys] using hkeys (n, d) (List.mem_cons_self _ _)
    have h3 : F2.add_edge (in_name n) (out_name n) (some c) = F3 := by
      rw [add_edge_of_mem hinF2 houtF2 hkeyF2]
    have hnd' : (tl.map Prod.fst).Nodup := (List.nodup_cons.mp hnd).2
    have hn_notin : n ∉ tl.map Prod.fst := (List.nodup_cons.mp hnd).1
    have step := ih F3
      (fun p hp => hattr p (List.mem_cons_of_mem _ hp))
      (by
        intro p hp
        have hbase := hfresh p (List.mem_cons_of_mem _ hp)
        have hpn : p.1 ≠ n := by
          intro he
          exact hn_notin (he ▸ List.mem_map_of_mem Prod.fst hp)
        constructor
        · simp only [hF3, nodeNames, List.map_append, List.mem_append]
          rintro (h | h)
          · exact hbase.1 h
          · simp at h
            rcases h with h | h
            · exact hpn (in_name_inj h)
            · exact (in_name_ne_out_name p.1 n) h
        · simp only [hF3, nodeNames, List.map_append, List.mem_append]
          rintro (h | h)
          · exact hbase.2 h
          · simp at h
            rcases h with h | h
            · exact (in_name_ne_out_name n p.1) h.symm
            · exact hpn (out_name_inj h))
      hnd'
      (by
        intro p hp
        have hbase := hkeys p (List.mem_cons_of_mem _ hp)
        have hpn : p.1 ≠ n := by
          intro he
          exact hn_notin (he ▸ List.mem_map_of_mem Prod.fst hp)
        simp only [hF3, edgeKeys, List.map_append, List.mem_append]
        rintro (h | h)
        · exact hbase h
        · simp at h
          exact hpn (in_name_inj h.1))
    show addSplitNodes F ((n, d) :: tl) = _
    rw [addSplitNodes, hc]
    simp only
    rw [h1, h2, h3, step]
    congr 1
    simp [hF3, splitNodes, internalEdges, List.flatMap_cons, ha1, ha2]
    exact hc.symm

theorem addTranscribed_char (l : List (String × String × Option Int)) :
    ∀ (F : DiGraph),
    (∀ e ∈ l, e.2.2.isSome) →
    (∀ e ∈ l, out_name e.1 ∈ nodeNames F ∧ in_name e.2.1 ∈ nodeNames F) →
    (l.map (fun e => (e.1, e.2.1))).Nodup →
    (∀ e ∈ l, (out_name e.1, in_name e.2.1) ∉ edgeKeys F) →
    addTranscribed F l = .ok { nodes := F.nodes, edges := F.edges ++ transEdges l } := by
  induction l with
  | nil =>
    intro F _ _ _ _
    simp [addTranscribed, transEdges]
  | cons hd tl ih =>
    intro F hattr hmem hnd hkeys
    obtain ⟨u, v, ca⟩ := hd
    obtain ⟨c, hc⟩ := Option.isSome_iff_exists.mp (hattr (u, v, ca) (List.mem_cons_self _ _))
    set F' : DiGraph :=
      { nodes := F.nodes, edges := F.edges ++ [(out_name u, in_name v, some c)] } with hF'
    have h1 : F.add_edge (out_name u) (in_name v) (some c) = F' :=
      add_edge_of_mem (hmem _ (List.mem_cons_self _ _)).1 (hmem _ (List.mem_cons_self _ _)).2
        (hkeys _ (List.mem_cons_self _ _))
    have hnd' := (List.nodup_cons.mp hnd).2
    have hkey_notin : (u, v) ∉ tl.map (fun e => (e.1, e.2.1)) := (List.nodup_cons.mp hnd).1
    have step := ih F'
      (fun e he => hattr e (List.mem_cons_of_mem _ he))
      (fun e he => hmem e (List.mem_cons_of_mem _ he))
      hnd'
      (by
        intro e he
        have hbase := hkeys e (List.mem_cons_of_mem _ he)
        simp only [hF', edgeKeys, List.map_append, List.mem_append]
        rintro (h | h)
        · exact hbase h
        · simp at h
          exact hkey_notin (by
            have : (e.1, e.2.1) = (u, v) := by
              rw [Prod.ext_iff]
              exact ⟨out_name_inj h.1, in_name_inj h.2⟩
            exact this ▸ List.mem_map_of_mem _ he))
    have hca : ca = some c := hc
    subst hca
    show addTranscribed F ((u, v, some c) :: tl) = _
    rw [addTranscribed.eq_def]
    simp only
    rw [h1, step]
    congr 1
    simp [hF', transEdges]

theorem addInjection_char (l : List (String × NodeAttrs)) :
    ∀ (F : DiGraph),
    (∀ p ∈ l, p.2.kind = some "source" → p.2.production_capacity.isSome) →
    (∀ p ∈ l, p.2.kind = some "source" → in_name p.1 ∈ nodeNames F) →
    super_source ∈ nodeNames F →
    (l.map Prod.fst).Nodup →
    (∀ p ∈ l, (super_source, in_name p.1) ∉ edgeKeys F) →
    addInjection F l = .ok { nodes := F.nodes, edges := F.edges ++ injEdges l } := by
  induction l with
  | nil =>
    intro F _ _ _ _ _
    simp [addInjection, injEdges]
  | cons hd tl ih =>
    intro F hattr hmem hss hnd hkeys
    obtain ⟨n, d⟩ := hd
    have hnd' := (List.nodup_cons.mp hnd).2
    have hn_notin : n ∉ tl.map Prod.fst := (List.nodup_cons.mp hnd).1
    by_cases hk : d.kind = some "source"
    · obtain ⟨pc, hpc⟩ :=
        Option.isSome_iff_exists.mp (hattr (n, d) (List.mem_cons_self _ _) hk)
      set F' : DiGraph :=
        { nodes := F.nodes, edges := F.edges ++ [(super_source, in_name n, some pc)] } with hF'
      have h1 : F.add_edge super_source (in_name n) (some pc) = F' :=
        add_edge_of_mem hss (hmem _ (List.mem_cons_self _ _) hk)
          (hkeys _ (List.mem_cons_self _ _))
      have step := ih F'
        (fun p hp => hattr p (List.mem_cons_of_mem _ hp))
        (fun p hp h => hmem p (List.mem_cons_of_mem _ hp) h)
        hss
        hnd'
        (by
          intro p hp
          have hbase := hkeys p (List.mem_cons_of_mem _ hp)
          simp only [hF', edgeKeys, List.map_append, List.mem_append]
          rintro (h | h)
          · exact hbase h
          · simp at h
            exact hn_notin ((in_name_inj h) ▸ List.mem_map_of_mem Prod.fst hp))
      have hpc' : d.production_capacity = some pc := hpc
      show addInjection F ((n, d) :: tl) = _
      rw [addInjection]
      rw [if_pos (by simp [hk])]
      rw [hpc']
      simp only
      rw [h1, step]
      congr 1
      simp [hF', injEdges, List.filter_cons, hk]
      exact hpc.symm
    · have step := ih F
        (fun p hp => hattr p (List.mem_cons_of_mem _ hp))
        (fun p hp h => hmem p (List.mem_cons_of_mem _ hp) h)
        hss
        hnd'
        (fun p hp => hkeys p (List.mem_cons_of_mem _ hp))
      show addInjection F ((n, d) :: tl) = _
      rw [addInjection]
      have hkb : (d.kind == some "source") = false := by
        simp [hk]
      simp only [hkb]
      rw [if_neg (by simp)]
      rw [step]
      congr 2
      simp [injEdges, List.filter_cons, hk]

theorem addExtraction_char (l : List (String × NodeAttrs)) :
    ∀ (F : DiGraph),
    (∀ p ∈ l, p.2.kind = some "sink" → p.2.demand.isSome) →
    (∀ p ∈ l, p.2.kind = some "sink" → out_name p.1 ∈ nodeNames F) →
    super_sink ∈ nodeNames F →
    (l.map Prod.fst).Nodup →
    (∀ p ∈ l, (out_name p.1, super_sink) ∉ edgeKeys F) →
    addExtraction F l = .ok { nodes := F.nodes, edges := F.edges ++ extEdges l } := by
  induction l with
  | nil =>
    intro F _ _ _ _ _
    simp [addExtraction, extEdges]
  | cons hd tl ih =>
    intro F hattr hmem hsk hnd hkeys
    obtain ⟨n, d⟩ := hd
    have hnd' := (List.nodup_cons.mp hnd).2
    have hn_notin : n ∉ tl.map Prod.fst := (List.nodup_cons.mp hnd).1
    by_cases hk : d.kind = some "sink"
    · obtain ⟨dem, hdem⟩ :=
        Option.isSome_iff_exists.mp (hattr (n, d) (List.mem_cons_self _ _) hk)
      set F' : DiGraph :=
        { nodes := F.nodes, edges := F.edges ++ [(out_name n, super_sink, some dem)] } with hF'
      have h1 : F.add_edge (out_name n) super_sink (some dem) = F' :=
        add_edge_of_mem (hmem _ (List.mem_cons_self _ _) hk) hsk
          (hkeys _ (List.mem_cons_self _ _))
      have step := ih F'
        (fun p hp => hattr p (List.mem_cons_of_mem _ hp))
        (fun p hp h => hmem p (List.mem_cons_of_mem _ hp) h)
        hsk
        hnd'
        (by
          intro p hp
          have hbase := hkeys p (List.mem_cons_of_mem _ hp)
          simp only [hF', edgeKeys, List.map_append, List.mem_append]
          rintro (h | h)
          · exact hbase h
          · simp at h
            exact hn_notin ((out_name_inj h) ▸ List.mem_map_of_mem Prod.fst hp))
      have hdem' : d.demand = some dem := hdem
      show addExtraction F ((n, d) :: tl) = _
      rw [addExtraction]
      rw [if_pos (by simp [hk])]
      rw [hdem']
      simp only
      rw [h1, step]
      congr 1
      simp [hF', extEdges, List.filter_cons, hk]
      exact hdem.symm
    · have step := ih F
        (fun p hp => hattr p (List.mem_cons_of_mem _ hp))
        (fun p hp h => hmem p (List.mem_cons_of_mem _ hp) h)
        hsk
        hnd'
        (fun p hp => hkeys p (List.mem_cons_of_mem _ hp))
      show addExtraction F ((n, d) :: tl) = _
      rw [addExtraction]
      have hkb : (d.kind == some "sink") = false := by
        simp [hk]
      simp only [hkb]
      rw [if_neg (by simp)]
      rw [step]
      congr 2
      simp [extEdges, List.filter_cons, hk]

theorem splitNodes_names (ns : List (String × NodeAttrs)) :
    (splitNodes ns).map Prod.fst = ns.flatMap (fun p => [in_name p.1, out_name p.1]) := by
  induction ns with
  | nil => simp [splitNodes]
  | cons hd tl ih => simp [splitNodes, List.flatMap_cons] at ih ⊢; exact ih

theorem in_name_mem_splitNames {ns : List (String × NodeAttrs)} {n : String}
    (h : n ∈ ns.map Prod.fst) :
    in_name n ∈ (splitNodes ns).map Prod.fst := by
  rw [splitNodes_names]
  simp only [List.mem_flatMap]
  obtain ⟨p, hp, hpn⟩ := List.mem_map.mp h
  exact ⟨p, hp, by simp [hpn]⟩

theorem out_name_mem_splitNames {ns : List (String × NodeAttrs)} {n : String}
    (h : n ∈ ns.map Prod.fst) :
    out_name n ∈ (splitNodes ns).map Prod.fst := by
  rw [splitNodes_names]
  simp only [List.mem_flatMap]
  obtain ⟨p, hp, hpn⟩ := List.mem_map.mp h
  exact ⟨p, hp, by simp [hpn]⟩

/-- Characterization of a successful transformation: on a wellformed
base graph with all required attributes, the transformer returns
exactly the reduced graph of section 3 of the specification. -/
theorem build_ok_char (B : DiGraph) (hWF : WFBase B) (hA : AttrsOK B) :
    build_flow_network_with_node_capacities B =
      .ok { nodes := redNodes B, edges := redEdges B } := by
  obtain ⟨hndN, hndE, hends⟩ := hWF
  obtain ⟨hA1, hA2, hA3, hA4⟩ := hA
  have hF0 : (DiGraph.empty.add_node super_source {}).add_node super_sink {} =
      { nodes := [(super_source, {}), (super_sink, {})], edges := [] } := by rfl
  set F1 : DiGraph :=
    { nodes := [(super_source, ({} : NodeAttrs)), (super_sink, {})] ++ splitNodes B.nodes,
      edges := ([] : List (String × String × Option Int)) ++ internalEdges B.nodes } with hF1d
  have h1 : addSplitNodes { nodes := [(super_source, {}), (super_sink, {})], edges := [] }
      B.nodes = .ok F1 := by
    apply addSplitNodes_char
    · exact hA1
    · intro p _
      constructor
      · simp [nodeNames]
        exact ⟨fun h => super_source_ne_in_name p.1 h.symm,
               fun h => super_sink_ne_in_name p.1 h.symm⟩
      · simp [nodeNames]
        exact ⟨fun h => super_source_ne_out_name p.1 h.symm,
               fun h => super_sink_ne_out_name p.1 h.symm⟩
    · exact hndN
    · intro p _
      simp [edgeKeys]
  have hF1names : nodeNames F1 =
      [super_source, super_sink] ++ (splitNodes B.nodes).map Prod.fst := by
    simp [hF1d, nodeNames]
  have hmemF1 : ∀ n ∈ nodeNames B, in_name n ∈ nodeNames F1 ∧ out_name n ∈ nodeNames F1 := by
    intro n hn
    rw [hF1names]
    exact ⟨List.mem_append_right _ (in_name_mem_splitNames hn),
           List.mem_append_right _ (out_name_mem_splitNames hn)⟩
  set F2 : DiGraph :=
    { nodes := F1.nodes, edges := F1.edges ++ transEdges B.edges } with hF2d
  have h2 : addTranscribed F1 B.edges = .ok F2 := by
    apply addTranscribed_char
    · exact hA2
    · intro e he
      exact ⟨(hmemF1 e.1 (hends e he).1).2, (hmemF1 e.2.1 (hends e he).2).1⟩
    · exact hndE
    · intro e _
      simp only [hF1d, edgeKeys, internalEdges, List.nil_append, List.map_map, List.mem_map]
      rintro ⟨p, _, hp⟩
      simp at hp
      exact (in_name_ne_out_name p.1 e.1) hp.1
  have hssF2 : super_source ∈ nodeNames F2 := by
    simp [hF2d, hF1d, nodeNames]
  have hskF2 : super_sink ∈ nodeNames F2 := by
    simp [hF2d, hF1d, nodeNames]
  set F3 : DiGraph :=
    { nodes := F2.nodes, edges := F2.edges ++ injEdges B.nodes } with hF3d
  have h3 : addInjection F2 B.nodes = .ok F3 := by
    apply addInjection_char
    · exact hA3
    · intro p hp _
      have : p.1 ∈ nodeNames B := List.mem_map_of_mem Prod.fst hp
      have h' := (hmemF1 p.1 this).1
      simpa [hF2d, nodeNames] using h'
    · exact hssF2
    · exact hndN
    · intro p _
      simp only [hF2d, hF1d, edgeKeys, List.map_append, List.nil_append, List.mem_append,
        internalEdges, transEdges, List.map_map, List.mem_map]
      rintro (⟨q, _, hq⟩ | ⟨e, _, he⟩)
      · simp at hq
        exact (super_source_ne_in_name q.1) hq.1.symm
      · simp at he
        exact (super_source_ne_out_name e.1) he.1.symm
  set F4 : DiGraph :=
    { nodes := F3.nodes, edges := F3.edges ++ extEdges B.nodes } with hF4d
  have h4 : addExtraction F3 B.nodes = .ok F4 := by
    apply addExtraction_char
    · exact hA4
    · intro p hp _
      have : p.1 ∈ nodeNames B := List.mem_map_of_mem Prod.fst hp
      have h' := (hmemF1 p.1 this).2
      simpa [hF3d, hF2d, nodeNames] using h'
    · simpa [hF3d, hF2d, nodeNames] using hskF2
    · exact hndN
    · intro p _
      simp only [hF3d, hF2d, hF1d, edgeKeys, List.map_append, List.nil_append, List.mem_append,
        internalEdges, transEdges, injEdges, List.map_map, List.mem_map]
      push_neg
      refine ⟨⟨fun q hq => ?_, fun e he => ?_⟩, fun q hq => ?_⟩
      · intro hc
        simp at hc
        exact (in_name_ne_out_name q.1 p.1) hc.1
      · intro hc
        simp at hc
        exact (super_sink_ne_in_name e.2.1) hc.2.symm
      · intro hc
        simp at hc
        exact (super_source_ne_out_name p.1) hc.1
  have e1 : build_flow_network_with_node_capacities B =
      Except.bind
        (addSplitNodes { nodes := [(super_source, {}), (super_sink, {})], edges := [] } B.nodes)
        (fun G1 => Except.bind (addTranscribed G1 B.edges)
          (fun G2 => Except.bind (addInjection G2 B.nodes)
            (fun G3 => addExtraction G3 B.nodes))) := rfl
  rw [e1, h1]
  show Except.bind (addTranscribed F1 B.edges) _ = _
  rw [h2]
  show Except.bind (addInjection F2 B.nodes) _ = _
  rw [h3]
  show addExtraction F3 B.nodes = _
  rw [h4]
  congr 1

theorem addSplitNodes_ok_iff (l : List (String × NodeAttrs)) :
    ∀ F : DiGraph, (∃ G, addSplitNodes F l = .ok G) ↔ ∀ p ∈ l, p.2.node_capacity.isSome := by
  induction l with
  | nil =>
    intro F
    simp [addSplitNodes]
  | cons hd tl ih =>
    intro F
    obtain ⟨n, d⟩ := hd
    cases hnc : d.node_capacity with
    | none =>
      simp only [addSplitNodes, hnc]
      constructor
      · rintro ⟨G, hG⟩
        exact absurd hG (by simp)
      · intro h
        have := h (n, d) (List.mem_cons_self _ _)
        simp [hnc] at this
    | some c =>
      simp only [addSplitNodes, hnc]
      rw [ih]
      constructor
      · intro h p hp
        rcases List.mem_cons.mp hp with h' | h'
        · subst h'
          simp [hnc]
        · exact h p h'
      · intro h p hp
        exact h p (List.mem_cons_of_mem _ hp)

theorem addTranscribed_ok_iff (l : List (String × String × Option Int)) :
    ∀ F : DiGraph, (∃ G, addTranscribed F l = .ok G) ↔ ∀ e ∈ l, e.2.2.isSome := by
  induction l with
  | nil =>
    intro F
    simp [addTranscribed]
  | cons hd tl ih =>
    intro F
    obtain ⟨u, v, ca⟩ := hd
    cases hca : ca with
    | none =>
      simp only [addTranscribed, hca]
      constructor
      · rintro ⟨G, hG⟩
        exact absurd hG (by simp)
      · intro h
        have := h (u, v, none) (List.mem_cons_self _ _)
        simp at this
    | some c =>
      simp only [addTranscribed, hca]
      rw [ih]
      constructor
      · intro h e he
        rcases List.mem_cons.mp he with h' | h'
        · subst h'
          simp [hca]
        · exact h e h'
      · intro h e he
        exact h e (List.mem_cons_of_mem _ he)

theorem addInjection_ok_iff (l : List (String × NodeAttrs)) :
    ∀ F : DiGraph, (∃ G, addInjection F l = .ok G) ↔
      ∀ p ∈ l, p.2.kind = some "source" → p.2.production_capacity.isSome := by
  induction l with
  | nil =>
    intro F
    simp [addInjection]
  | cons hd tl ih =>
    intro F
    obtain ⟨n, d⟩ := hd
    by_cases hk : d.kind = some "source"
    · cases hpc : d.production_capacity with
      | none =>
        simp only [addInjection, hk]
        rw [if_pos (by simp)]
        simp only [hpc]
        constructor
        · rintro ⟨G, hG⟩
          exact absurd hG (by simp)
        · intro h
          have := h (n, d) (List.mem_cons_self _ _) hk
          simp [hpc] at this
      | some pc =>
        simp only [addInjection, hk]
        rw [if_pos (by simp)]
        simp only [hpc]
        rw [ih]
        constructor
        · intro h p hp hps
          rcases List.mem_cons.mp hp with h' | h'
          · subst h'
            simp [hpc]
          · exact h p h' hps
        · intro h p hp hps
          exact h p (List.mem_cons_of_mem _ hp) hps
    · simp only [addInjection]
      rw [if_neg (by simp [hk])]
      rw [ih]
      constructor
      · intro h p hp hps
        rcases List.mem_cons.mp hp with h' | h'
        · subst h'
          exact absurd hps hk
        · exact h p h' hps
      · intro h p hp hps
        exact h p (List.mem_cons_of_mem _ hp) hps

theorem addExtraction_ok_iff (l : List (String × NodeAttrs)) :
    ∀ F : DiGraph, (∃ G, addExtraction F l = .ok G) ↔
      ∀ p ∈ l, p.2.kind = some "sink" → p.2.demand.isSome := by
  induction l with
  | nil =>
    intro F
    simp [addExtraction]
  | cons hd tl ih =>
    intro F
    obtain ⟨n, d⟩ := hd
    by_cases hk : d.kind = some "sink"
    · cases hdm : d.demand with
      | none =>
        simp only [addExtraction, hk]
        rw [if_pos (by simp)]
        simp only [hdm]
        constructor
        · rintro ⟨G, hG⟩
          exact absurd hG (by simp)
        · intro h
          have := h (n, d) (List.mem_cons_self _ _) hk
          simp [hdm] at this
      | some dm =>
        simp only [addExtraction, hk]
        rw [if_pos (by simp)]
        simp only [hdm]
        rw [ih]
        constructor
        · intro h p hp hps
          rcases List.mem_cons.mp hp with h' | h'
          · subst h'
            simp [hdm]
          · exact h p h' hps
        · intro h p hp hps
          exact h p (List.mem_cons_of_mem _ hp) hps
    · simp only [addExtraction]
      rw [if_neg (by simp [hk])]
      rw [ih]
      constructor
      · intro h p hp hps
        rcases List.mem_cons.mp hp with h' | h'
        · subst h'
          exact absurd hps hk
        · exact h p h' hps
      · intro h p hp hps
        exact h p (List.mem_cons_of_mem _ hp) hps

/-- The transformation succeeds exactly when every node has a
`node_capacity`, every edge a `capacity`, every source a
`production_capacity` and every sink a `demand`. -/
theorem build_ok_iff (B : DiGraph) :
    (∃ F, build_flow_network_with_node_capacities B = .ok F) ↔ AttrsOK B := by
  have e1 : ∀ z : Except String DiGraph, build_flow_network_with_node_capacities B = z ↔
      Except.bind
        (addSplitNodes { nodes := [(super_source, {}), (super_sink, {})], edges := [] } B.nodes)
        (fun G1 => Except.bind (addTranscribed G1 B.edges)
          (fun G2 => Except.bind (addInjection G2 B.nodes)
            (fun G3 => addExtraction G3 B.nodes))) = z := by
    intro z
    exact Iff.rfl
  constructor
  · rintro ⟨F, hF⟩
    rw [e1] at hF
    cases h1 : addSplitNodes { nodes := [(super_source, {}), (super_sink, {})], edges := [] }
        B.nodes with
    | error msg => rw [h1] at hF; exact absurd hF (by simp [Except.bind])
    | ok G1 =>
      rw [h1] at hF
      simp only [Except.bind] at hF
      cases h2 : addTranscribed G1 B.edges with
      | error msg => rw [h2] at hF; exact absurd hF (by simp)
      | ok G2 =>
        rw [h2] at hF
        simp only at hF
        cases h3 : addInjection G2 B.nodes with
        | error msg => rw [h3] at hF; exact absurd hF (by simp)
        | ok G3 =>
          rw [h3] at hF
          simp only at hF
          refine ⟨(addSplitNodes_ok_iff B.nodes _).mp ⟨G1, h1⟩,
                  (addTranscribed_ok_iff B.edges _).mp ⟨G2, h2⟩,
                  (addInjection_ok_iff B.nodes _).mp ⟨G3, h3⟩,
                  (addExtraction_ok_iff B.nodes _).mp ⟨F, hF⟩⟩
  · rintro ⟨hA1, hA2, hA3, hA4⟩
    obtain ⟨G1, h1⟩ := (addSplitNodes_ok_iff B.nodes
      { nodes := [(super_source, {}), (super_sink, {})], edges := [] }).mpr hA1
    obtain ⟨G2, h2⟩ := (addTranscribed_ok_iff B.edges G1).mpr hA2
    obtain ⟨G3, h3⟩ := (addInjection_ok_iff B.nodes G2).mpr hA3
    obtain ⟨G4, h4⟩ := (addExtraction_ok_iff B.nodes G3).mpr hA4
    refine ⟨G4, ?_⟩
    rw [e1, h1]
    simp only [Except.bind]
    rw [h2]
    simp only
    rw [h3]
    simp only
    exact h4

theorem fst_inj_of_nodup {l : List (String × NodeAttrs)}
    (hnd : (l.map Prod.fst).Nodup) {p q : String × NodeAttrs}
    (hp : p ∈ l) (hq : q ∈ l) (h : p.1 = q.1) : p = q := by
  induction l with
  | nil => cases hp
  | cons hd tl ih =>
    rcases List.mem_cons.mp hp with hp' | hp' <;> rcases List.mem_cons.mp hq with hq' | hq'
    · rw [hp', hq']
    · exfalso
      have : q.1 ∈ tl.map Prod.fst := List.mem_map_of_mem Prod.fst hq'
      rw [← h, hp'] at this
      exact (List.nodup_cons.mp (by simpa using hnd)).1 this
    · exfalso
      have : p.1 ∈ tl.map Prod.fst := List.mem_map_of_mem Prod.fst hp'
      rw [h, hq'] at this
      exact (List.nodup_cons.mp (by simpa using hnd)).1 this
    · exact ih (by simpa using (List.nodup_cons.mp (by simpa using hnd)).2) hp' hq'

theorem splitNodes_length (ns : List (String × NodeAttrs)) :
    (splitNodes ns).length = 2 * ns.length := by
  induction ns with
  | nil => simp [splitNodes]
  | cons hd tl ih =>
    simp [splitNodes, List.flatMap_cons] at ih ⊢
    omega

theorem exists_error_iff_not_ok {z : Except String DiGraph} :
    (∃ msg, z = .error msg) ↔ ¬ ∃ F, z = .ok F := by
  cases z <;> simp

/-- C1: on an input graph where every node has a `node_capacity`, every
source a `production_capacity` and every sink a `demand`, the reduced
graph produced by the transformer contains exactly the internal edges
`n_in -> n_out` (capacity `node_capacity`), the transcribed edges
`u_out -> v_in` (same capacity as `(u,v)`), the injection edges
`super_source -> n_in` (capacity `production_capacity`) and the
extraction edges `n_out -> super_sink` (capacity `demand`). -/
theorem claim_C1 (B F : DiGraph) (hWF : WFBase B)
    (hnc : ∀ p ∈ B.nodes, p.2.node_capacity.isSome)
    (hprod : ∀ p ∈ B.nodes, p.2.kind = some "source" → p.2.production_capacity.isSome)
    (hdem : ∀ p ∈ B.nodes, p.2.kind = some "sink" → p.2.demand.isSome)
    (hok : build_flow_network_with_node_capacities B = .ok F) :
    F.edges = internalEdges B.nodes ++ transEdges B.edges
      ++ injEdges B.nodes ++ extEdges B.nodes := by
  have hA : AttrsOK B := (build_ok_iff B).mp ⟨F, hok⟩
  have hchar := build_ok_char B hWF hA
  rw [hok] at hchar
  have : F = { nodes := redNodes B, edges := redEdges B } := by
    injection hchar
  rw [this]
  rfl

set_option maxRecDepth 40000 in
/-- C1 witness: the fixed example network instantiates C1. -/
theorem claim_C1_witness :
    ∃ F, build_flow_network_with_node_capacities build_random_gas_network = .ok F ∧
      F.edges = internalEdges build_random_gas_network.nodes
        ++ transEdges build_random_gas_network.edges
        ++ injEdges build_random_gas_network.nodes
        ++ extEdges build_random_gas_network.nodes := by
  have hok : build_flow_network_with_node_capacities build_random_gas_network =
      .ok { nodes := redNodes build_random_gas_network,
            edges := redEdges build_random_gas_network } := by
    rfl
  exact ⟨_, hok, claim_C1 build_random_gas_network _
    ⟨by decide, by decide, by decide⟩ (by decide) (by decide) (by decide) hok⟩

/-- C3 counterexample: a graph satisfying all three node-attribute
conditions of the claim (so the claim predicts no failure) on which the
transformation nevertheless fails, because an edge lacks `capacity`.
This refutes the claimed "if and only if". -/
theorem claim_C3_counterexample :
    (∀ p ∈ exMissingEdgeCap.nodes, p.2.node_capacity.isSome) ∧
    (∀ p ∈ exMissingEdgeCap.nodes,
      p.2.kind = some "source" → p.2.production_capacity.isSome) ∧
    (∀ p ∈ exMissingEdgeCap.nodes, p.2.kind = some "sink" → p.2.demand.isSome) ∧
    ¬ ∃ F, build_flow_network_with_node_capacities exMissingEdgeCap = .ok F := by
  refine ⟨by decide, by decide, by decide, ?_⟩
  rintro ⟨F, hF⟩
  rw [show build_flow_network_with_node_capacities exMissingEdgeCap =
      .error "Edge (a, b) missing capacity" from rfl] at hF
  exact absurd hF (by simp)

/-- C3 amended: the transformation fails (with the `ValueError` the
spec calls `MissingAttributeError`) if and only if some node lacks
`node_capacity`, some edge lacks `capacity`, some source lacks
`production_capacity`, or some sink lacks `demand`; by construction the
failure arises while building the reduced graph, before the solver is
invoked. -/
theorem claim_C3_amended (B : DiGraph) :
    (∃ msg, build_flow_network_with_node_capacities B = .error msg) ↔
      ((∃ p ∈ B.nodes, p.2.node_capacity = none) ∨
       (∃ e ∈ B.edges, e.2.2 = none) ∨
       (∃ p ∈ B.nodes, p.2.kind = some "source" ∧ p.2.production_capacity = none) ∨
       (∃ p ∈ B.nodes, p.2.kind = some "sink" ∧ p.2.demand = none)) := by
  rw [exists_error_iff_not_ok, build_ok_iff]
  unfold AttrsOK
  constructor
  · intro h
    by_contra hcon
    push_neg at hcon
    obtain ⟨h1, h2, h3, h4⟩ := hcon
    refine h ⟨?_, ?_, ?_, ?_⟩
    · intro p hp
      cases hx : p.2.node_capacity with
      | none => exact absurd hx (h1 p hp)
      | some c => simp [hx]
    · intro e he
      cases hx : e.2.2 with
      | none => exact absurd hx (h2 e he)
      | some c => simp [hx]
    · intro p hp hk
      cases hx : p.2.production_capacity with
      | none => exact absurd hx (h3 p hp hk)
      | some c => simp [hx]
    · intro p hp hk
      cases hx : p.2.demand with
      | none => exact absurd hx (h4 p hp hk)
      | some c => simp [hx]
  · rintro (⟨p, hp, h⟩ | ⟨e, he, h⟩ | ⟨p, hp, hk, h⟩ | ⟨p, hp, hk, h⟩) ⟨h1, h2, h3, h4⟩
    · have := h1 p hp
      rw [h] at this
      exact absurd this (by simp)
    · have := h2 e he
      rw [h] at this
      exact absurd this (by simp)
    · have := h3 p hp hk
      rw [h] at this
      exact absurd this (by simp)
    · have := h4 p hp hk
      rw [h] at this
      exact absurd this (by simp)

/-- C4 counterexample: the graph model is `networkx.DiGraph`, which
performs no validation.  Adding an edge with two undeclared endpoints
and a negative capacity is accepted: both endpoints are created
implicitly and the negative capacity is stored, where the claim says
the insertion is rejected with a `ValidationError`. -/
theorem claim_C4_counterexample :
    exAutoCreate.nodes = [("a", ({} : NodeAttrs)), ("b", ({} : NodeAttrs))] ∧
    exAutoCreate.edges = [("a", "b", some (-5))] := by
  constructor <;> rfl

/-- C4 amended: the graph model never rejects an insertion.  Adding an
edge whose endpoints are undeclared silently creates both endpoint
nodes (with empty attributes) and records the edge with whatever
capacity was supplied, negative values included. -/
theorem claim_C4_amended (g : DiGraph) (u v : String) (c : Option Int)
    (hu : u ∉ nodeNames g) (hv : v ∉ nodeNames g) (huv : u ≠ v)
    (hk : (u, v) ∉ edgeKeys g) :
    (g.add_edge u v c).nodes = g.nodes ++ [(u, ({} : NodeAttrs)), (v, ({} : NodeAttrs))] ∧
    (g.add_edge u v c).edges = g.edges ++ [(u, v, c)] := by
  have hu' : g.hasNode u = false := by
    cases hc : g.hasNode u
    · rfl
    · exact absurd (hasNode_iff.mp hc) hu
  have hv' : (DiGraph.mk (g.nodes ++ [(u, ({} : NodeAttrs))]) g.edges).hasNode v = false := by
    cases hc : (DiGraph.mk (g.nodes ++ [(u, ({} : NodeAttrs))]) g.edges).hasNode v
    · rfl
    · have := hasNode_iff.mp hc
      simp [nodeNames, List.map_append] at this
      rcases this with h | h
      · exact absurd (by simpa [nodeNames] using h) hv
      · exact absurd h.symm huv
  have hk' : (DiGraph.mk (g.nodes ++ [(u, ({} : NodeAttrs)), (v, ({} : NodeAttrs))])
      g.edges).hasEdge u v = false := by
    cases hc : (DiGraph.mk (g.nodes ++ [(u, ({} : NodeAttrs)), (v, ({} : NodeAttrs))])
        g.edges).hasEdge u v
    · rfl
    · have := hasEdge_iff.mp hc
      exact absurd (by simpa [edgeKeys] using this) hk
  refine ⟨?_, ?_⟩ <;>
  · unfold DiGraph.add_edge
    simp [hu', hv', hk']

/-- C4 amended witness: instantiation on a concrete fresh graph. -/
theorem claim_C4_amended_witness :
    (DiGraph.empty.add_edge "x" "y" (some (-7))).nodes =
      [("x", ({} : NodeAttrs)), ("y", ({} : NodeAttrs))] ∧
    (DiGraph.empty.add_edge "x" "y" (some (-7))).edges = [("x", "y", some (-7))] := by
  have h := claim_C4_amended DiGraph.empty "x" "y" (some (-7))
    (by decide) (by decide) (by decide) (by decide)
  simpa [DiGraph.empty] using h

/-- C5 counterexample: a network whose capacity incident to the node
`s_out` totals `2^65` — far beyond a 64-bit width — is not rejected:
the pipeline runs to completion and returns the exact flow value
`2^64`.  No `CapacityOverflowError` exists anywhere in the program. -/
theorem claim_C5_counterexample :
    ((build_flow_network_with_node_capacities exHugeCaps).map
      (fun F => ((F.toFlowNet.arcs.filter
        (fun a => a.1 == out_name "s" || a.2.1 == out_name "s")).map
          (fun a => a.2.2)).sum) = .ok (2 ^ 64 + 2 ^ 64)) ∧
    (2 ^ 64 + 2 ^ 64 : Nat) > 2 ^ 64 - 1 ∧
    demo_flow_value exHugeCaps = .ok (2 ^ 64) := by
  refine ⟨rfl, by norm_num, rfl⟩

/-- C5 amended: the program performs no capacity-magnitude check at
all.  Whenever the attribute validation of the transformer passes, the
pipeline runs to completion and produces a result, however large the
capacities are; arbitrary-precision integers make overflow impossible,
and all capacities and flow values are non-negative integers. -/
theorem claim_C5_amended (B : DiGraph) (hA : AttrsOK B) :
    ∃ r, solve_base B = .ok r := by
  obtain ⟨F, hF⟩ := (build_ok_iff B).mpr hA
  exact ⟨maximum_flow F.toFlowNet super_source super_sink, by
    simp [solve_base, hF, Except.map]⟩

/-- C5 amended witness: instantiation on the fixed example network. -/
theorem claim_C5_amended_witness :
    ∃ r, solve_base build_random_gas_network = .ok r :=
  claim_C5_amended build_random_gas_network ⟨by decide, by decide, by decide, by decide⟩

/-- C9: a successful transformation yields exactly `2 + 2|V|` reduced
nodes and `|V| + |E| + S + K` reduced edges, where `S` counts source
nodes and `K` sink nodes: the suffix naming scheme creates no
collisions that would merge nodes or overwrite edges. -/
theorem claim_C9 (B F : DiGraph) (hWF : WFBase B)
    (hok : build_flow_network_with_node_capacities B = .ok F) :
    F.nodes.length = 2 + 2 * B.nodes.length ∧
    F.edges.length = B.nodes.length + B.edges.length
      + (B.nodes.filter (fun p => p.2.kind == some "source")).length
      + (B.nodes.filter (fun p => p.2.kind == some "sink")).length := by
  have hA : AttrsOK B := (build_ok_iff B).mp ⟨F, hok⟩
  have hchar := build_ok_char B hWF hA
  rw [hok] at hchar
  have hFe : F = { nodes := redNodes B, edges := redEdges B } := by
    injection hchar
  subst hFe
  constructor
  · show (redNodes B).length = _
    simp [redNodes, splitNodes_length]
    omega
  · show (redEdges B).length = _
    simp [redEdges, internalEdges, transEdges, injEdges, extEdges,
      List.length_append, List.length_map]
    omega

set_option maxRecDepth 40000 in
/-- C9 witness: on the fixed example network the reduced graph has
`2 + 2*8 = 18` nodes and `8 + 10 + 2 + 3 = 23` edges. -/
theorem claim_C9_witness :
    ∃ F, build_flow_network_with_node_capacities build_random_gas_network = .ok F ∧
      F.nodes.length = 2 + 2 * build_random_gas_network.nodes.length ∧
      F.edges.length = build_random_gas_network.nodes.length
        + build_random_gas_network.edges.length
        + (build_random_gas_network.nodes.filter
            (fun p => p.2.kind == some "source")).length
        + (build_random_gas_network.nodes.filter
            (fun p => p.2.kind == some "sink")).length := by
  have hok : build_flow_network_with_node_capacities build_random_gas_network =
      .ok { nodes := redNodes build_random_gas_network,
            edges := redEdges build_random_gas_network } := by
    rfl
  exact ⟨_, hok, claim_C9 build_random_gas_network _ ⟨by decide, by decide, by decide⟩ hok⟩

/-- C10: a node whose `kind` is absent or neither `"source"` nor
`"sink"` is treated as an intermediate: the transformation succeeds
without requiring its `production_capacity` or `demand`, creates its
split nodes and internal edge, and attaches no injection or extraction
edge to it. -/
theorem claim_C10 (B : DiGraph) (hWF : WFBase B) (hA : AttrsOK B)
    (m : String × NodeAttrs) (hm : m ∈ B.nodes)
    (hks : m.2.kind ≠ some "source") (hkk : m.2.kind ≠ some "sink") :
    ∃ F, build_flow_network_with_node_capacities B = .ok F ∧
      (in_name m.1, ({ original := some m.1, role := some "in" } : NodeAttrs)) ∈ F.nodes ∧
      (out_name m.1, ({ original := some m.1, role := some "out" } : NodeAttrs)) ∈ F.nodes ∧
      (in_name m.1, out_name m.1, m.2.node_capacity) ∈ F.edges ∧
      (∀ c, (super_source, in_name m.1, c) ∉ F.edges) ∧
      (∀ c, (out_name m.1, super_sink, c) ∉ F.edges) := by
  have hchar := build_ok_char B hWF hA
  refine ⟨_, hchar, ?_, ?_, ?_, ?_, ?_⟩
  · show _ ∈ redNodes B
    simp only [redNodes, splitNodes, List.mem_cons, List.mem_flatMap]
    refine Or.inr (Or.inr ⟨m, hm, ?_⟩)
    simp
  · show _ ∈ redNodes B
    simp only [redNodes, splitNodes, List.mem_cons, List.mem_flatMap]
    refine Or.inr (Or.inr ⟨m, hm, ?_⟩)
    simp
  · show _ ∈ redEdges B
    simp only [redEdges, List.mem_append]
    refine Or.inl (Or.inl (Or.inl ?_))
    simp only [internalEdges, List.mem_map]
    exact ⟨m, hm, rfl⟩
  · intro c hc
    simp only [redEdges, List.mem_append] at hc
    rcases hc with ((hc | hc) | hc) | hc
    · simp only [internalEdges, List.mem_map] at hc
      obtain ⟨q, _, hq⟩ := hc
      have : in_name q.1 = super_source := congrArg Prod.fst hq
      exact (super_source_ne_in_name q.1) this.symm
    · simp only [transEdges, List.mem_map] at hc
      obtain ⟨e, _, he⟩ := hc
      have : out_name e.1 = super_source := congrArg Prod.fst he
      exact (super_source_ne_out_name e.1) this.symm
    · simp only [injEdges, List.mem_map] at hc
      obtain ⟨q, hq, hqe⟩ := hc
      have hq1 : in_name q.1 = in_name m.1 := congrArg (fun x => x.2.1) hqe
      have : q = m := fst_inj_of_nodup hWF.1 (List.mem_filter.mp hq).1 hm (in_name_inj hq1)
      have hqs : q.2.kind = some "source" := by
        have := (List.mem_filter.mp hq).2
        simpa using this
      rw [this] at hqs
      exact hks hqs
    · simp only [extEdges, List.mem_map] at hc
      obtain ⟨q, _, hqe⟩ := hc
      have : out_name q.1 = super_source := congrArg Prod.fst hqe
      exact (super_source_ne_out_name q.1) this.symm
  · intro c hc
    simp only [redEdges, List.mem_append] at hc
    rcases hc with ((hc | hc) | hc) | hc
    · simp only [internalEdges, List.mem_map] at hc
      obtain ⟨q, _, hq⟩ := hc
      have : out_name q.1 = super_sink := congrArg (fun x => x.2.1) hq
      exact (super_sink_ne_out_name q.1) this.symm
    · simp only [transEdges, List.mem_map] at hc
      obtain ⟨e, _, he⟩ := hc
      have : in_name e.2.1 = super_sink := congrArg (fun x => x.2.1) he
      exact (super_sink_ne_in_name e.2.1) this.symm
    · simp only [injEdges, List.mem_map] at hc
      obtain ⟨q, _, hqe⟩ := hc
      have : super_source = out_name m.1 := congrArg Prod.fst hqe
      exact (super_source_ne_out_name m.1) this
    · simp only [extEdges, List.mem_map] at hc
      obtain ⟨q, hq, hqe⟩ := hc
      have hq1 : out_name q.1 = out_name m.1 := congrArg Prod.fst hqe
      have : q = m := fst_inj_of_nodup hWF.1 (List.mem_filter.mp hq).1 hm (out_name_inj hq1)
      have hqs : q.2.kind = some "sink" := by
        have := (List.mem_filter.mp hq).2
        simpa using this
      rw [this] at hqs
      exact hkk hqs

set_option maxRecDepth 40000 in
/-- C10 witness: the intermediate node `mid_0` of the example network,
which has neither `production_capacity` nor `demand`. -/
theorem claim_C10_witness :
    ∃ F, build_flow_network_with_node_capacities build_random_gas_network = .ok F ∧
      (in_name "mid_0", ({ original := some "mid_0", role := some "in" } : NodeAttrs)) ∈ F.nodes ∧
      (out_name "mid_0", ({ original := some "mid_0", role := some "out" } : NodeAttrs)) ∈ F.nodes ∧
      (in_name "mid_0", out_name "mid_0", some (9000 : Int)) ∈ F.edges ∧
      (∀ c, (super_source, in_name "mid_0", c) ∉ F.edges) ∧
      (∀ c, (out_name "mid_0", super_sink, c) ∉ F.edges) :=
  claim_C10 build_random_gas_network ⟨by decide, by decide, by decide⟩
    ⟨by decide, by decide, by decide, by decide⟩
    ("mid_0", { kind := some "intermediate", node_capacity := some 9000 })
    (by decide) (by decide) (by decide)

theorem mem_rsuccs {N : FlowNet} {f : FlowAssign} {u v : String}
    (h : v ∈ rsuccs N f u) : v ∈ N.verts ∧ 0 < resid N f u v := by
  have := List.mem_filter.mp h
  exact ⟨this.1, by simpa using this.2⟩

theorem bfsAug_sound (N : FlowNet) (f : FlowAssign) (s t : String) :
    ∀ (fuel : Nat) (queue : List (List String)) (visited : List String)
      (p : List String),
    (∀ q ∈ queue, GoodStored N f s q ∧ ∀ x ∈ q, x ∈ visited) →
    bfsAug N f t fuel queue visited = some p →
    GoodPath N f s t p := by
  intro fuel
  induction fuel with
  | zero =>
    intro queue visited p _ h
    cases queue with
    | nil => exact absurd h (by simp [bfsAug])
    | cons q rest => exact absurd h (by simp [bfsAug])
  | succ fuel ih =>
    intro queue visited p hinv h
    cases queue with
    | nil => exact absurd h (by simp [bfsAug])
    | cons q rest =>
      cases hq : q with
      | nil =>
        simp only [bfsAug] at h
        rw [hq] at h
        exact Option.noConfusion h
      | cons x q' =>
        simp only [bfsAug] at h
        rw [hq] at h
        have h' : (if x = t then some (x :: q').reverse
            else bfsAug N f t fuel
              (rest ++ ((rsuccs N f x).filter
                (fun y => decide (y ∉ visited))).map (fun y => y :: (x :: q')))
              (visited ++ (rsuccs N f x).filter
                (fun y => decide (y ∉ visited)))) = some p := h
        clear h
        rename' h' => h
        by_cases hx : x = t
        · rw [if_pos hx] at h
          have hp : p = (x :: q').reverse := (Option.some.inj h).symm
          obtain ⟨⟨hne, hlast, hnd, hchain, hmem⟩, _⟩ :=
            hinv q (List.mem_cons_self _ _)
          rw [hq] at hne hlast hnd hchain hmem
          subst hp
          refine ⟨?_, ?_, ?_, ?_, ?_⟩
          · rw [List.head?_reverse]
            exact hlast
          · rw [List.getLast?_reverse]
            simp [hx]
          · exact List.nodup_reverse.mpr hnd
          · rw [List.chain'_reverse]
            exact hchain
          · intro y hy
            exact hmem y (List.mem_reverse.mp hy)
        · rw [if_neg hx] at h
          refine ih _ _ p ?_ h
          intro r hr
          rcases List.mem_append.mp hr with hr | hr
          · obtain ⟨hg, hsub⟩ := hinv r (List.mem_cons_of_mem _ hr)
            exact ⟨hg, fun y hy => List.mem_append_left _ (hsub y hy)⟩
          · obtain ⟨y, hy, hyr⟩ := List.mem_map.mp hr
            have hy' := List.mem_filter.mp hy
            obtain ⟨hyv, hyresid⟩ := mem_rsuccs hy'.1
            have hynotvis : y ∉ visited := by
              have := hy'.2
              simpa using this
            obtain ⟨⟨hne, hlast, hnd, hchain, hmem⟩, hsub⟩ :=
              hinv q (List.mem_cons_self _ _)
            rw [hq] at hne hlast hnd hchain hmem hsub
            subst hyr
            constructor
            · refine ⟨by simp, ?_, ?_, ?_, ?_⟩
              · rw [List.getLast?_cons_cons]
                exact hlast
              · refine List.nodup_cons.mpr ⟨?_, hnd⟩
                intro hyq
                exact hynotvis (hsub y hyq)
              · rw [List.chain'_cons]
                exact ⟨hyresid, hchain⟩
              · intro z hz
                rcases List.mem_cons.mp hz with hz | hz
                · exact Or.inr (hz ▸ hyv)
                · exact hmem z hz
            · intro z hz
              rcases List.mem_cons.mp hz with hz | hz
              · refine List.mem_append_right _ ?_
                rw [hz]
                exact hy
              · exact List.mem_append_left _ (hsub z hz)

theorem findAugPath_sound {N : FlowNet} {f : FlowAssign} {s t : String}
    {p : List String} (h : findAugPath N f s t = some p) :
    GoodPath N f s t p := by
  refine bfsAug_sound N f s t _ [[s]] [s] p ?_ h
  intro q hq
  have hqs : q = [s] := by simpa using hq
  subst hqs
  refine ⟨⟨by simp, by simp, by simp, by simp, ?_⟩, by simp⟩
  intro x hx
  simp at hx
  exact Or.inl hx

theorem pathPairs_mem {p : List String} {pr : String × String}
    (h : pr ∈ pathPairs p) : pr.1 ∈ p ∧ pr.2 ∈ p := by
  induction p with
  | nil => cases h
  | cons a tail ih =>
    cases tail with
    | nil => cases h
    | cons b rest =>
      rcases List.mem_cons.mp h with h' | h'
      · subst h'
        exact ⟨List.mem_cons_self _ _, List.mem_cons_of_mem _ (List.mem_cons_self _ _)⟩
      · have := ih h'
        exact ⟨List.mem_cons_of_mem _ this.1, List.mem_cons_of_mem _ this.2⟩

theorem chain'_pathPairs {R : String → String → Prop} {p : List String}
    (h : List.Chain' R p) : ∀ pr ∈ pathPairs p, R pr.1 pr.2 := by
  induction p with
  | nil => intro pr hpr; cases hpr
  | cons a tail ih =>
    cases tail with
    | nil => intro pr hpr; cases hpr
    | cons b rest =>
      intro pr hpr
      rw [List.chain'_cons] at h
      rcases List.mem_cons.mp hpr with h' | h'
      · subst h'
        exact h.1
      · exact ih h.2 pr h'

theorem foldl_min_le_init (rs : List Nat) : ∀ r : Nat, rs.foldl min r ≤ r := by
  induction rs with
  | nil => intro r; simp
  | cons c tl ih =>
    intro r
    calc tl.foldl min (min r c) ≤ min r c := ih (min r c)
    _ ≤ r := Nat.min_le_left _ _

theorem foldl_min_le_mem (rs : List Nat) : ∀ r : Nat, ∀ x ∈ rs, rs.foldl min r ≤ x := by
  induction rs with
  | nil => intro r x hx; cases hx
  | cons c tl ih =>
    intro r x hx
    rcases List.mem_cons.mp hx with h' | h'
    · subst h'
      calc tl.foldl min (min r x) ≤ min r x := foldl_min_le_init tl _
      _ ≤ x := Nat.min_le_right _ _
    · exact ih (min r c) x h'

theorem bottleneck_le_resid {N : FlowNet} {f : FlowAssign} {p : List String}
    {pr : String × String} (h : pr ∈ pathPairs p) :
    bottleneck N f p ≤ resid N f pr.1 pr.2 := by
  unfold bottleneck
  cases hm : (pathPairs p).map (fun e => resid N f e.1 e.2) with
  | nil =>
    exact absurd (List.mem_map_of_mem (fun e => resid N f e.1 e.2) h) (by simp [hm])
  | cons r rs =>
    show rs.foldl min r ≤ resid N f pr.1 pr.2
    have hmem : resid N f pr.1 pr.2 ∈ r :: rs := by
      rw [← hm]
      exact List.mem_map_of_mem _ h
    rcases List.mem_cons.mp hmem with h' | h'
    · rw [← h']
      exact foldl_min_le_init rs _
    · exact foldl_min_le_mem rs r _ h'

theorem pushFlow_apply_other {f : FlowAssign} {a b u v : String} {d : Nat}
    (h1 : ¬(u = b ∧ v = a)) (h2 : ¬(u = a ∧ v = b)) :
    pushFlow f a b d u v = f u v := by
  unfold pushFlow
  rw [if_neg h1, if_neg h2]

theorem resid_pushFlow_other {N : FlowNet} {f : FlowAssign} {a b x y : String} {d : Nat}
    (h1 : ¬(x = a ∧ y = b)) (h2 : ¬(x = b ∧ y = a)) :
    resid N (pushFlow f a b d) x y = resid N f x y := by
  unfold resid
  rw [pushFlow_apply_other h2 h1,
      pushFlow_apply_other (fun hc => h1 ⟨hc.2, hc.1⟩) (fun hc => h2 ⟨hc.2, hc.1⟩)]

theorem pushFlow_feasible {N : FlowNet} {f : FlowAssign} {a b : String} {d : Nat}
    (hf : Feasible N f) (hd : d ≤ resid N f a b) :
    Feasible N (pushFlow f a b d) := by
  intro u v
  unfold pushFlow
  by_cases h1 : u = b ∧ v = a
  · rw [if_pos h1]
    obtain ⟨hu, hv⟩ := h1
    subst hu
    subst hv
    exact le_trans (Nat.sub_le _ _) (hf u v)
  · rw [if_neg h1]
    by_cases h2 : u = a ∧ v = b
    · rw [if_pos h2]
      obtain ⟨hu, hv⟩ := h2
      subst hu
      subst hv
      unfold resid at hd
      have hfc := hf u v
      rcases Nat.le_total d (f v u) with hle | hle
      · rw [Nat.min_eq_left hle]
        omega
      · rw [Nat.min_eq_right hle]
        omega
    · rw [if_neg h2]
      exact hf u v

theorem augment_feasible {N : FlowNet} {d : Nat} :
    ∀ (p : List String) (f : FlowAssign), Feasible N f → p.Nodup →
    (∀ pr ∈ pathPairs p, d ≤ resid N f pr.1 pr.2) →
    Feasible N (augment f p d) := by
  intro p
  induction p with
  | nil => intro f hf _ _; exact hf
  | cons a tail ih =>
    cases tail with
    | nil => intro f hf _ _; exact hf
    | cons b rest =>
      intro f hf hnd hpairs
      show Feasible N (augment (pushFlow f a b d) (b :: rest) d)
      have hdab : d ≤ resid N f a b :=
        hpairs (a, b) (by simp [pathPairs])
      have ha_notin : a ∉ b :: rest := (List.nodup_cons.mp hnd).1
      refine ih (pushFlow f a b d) (pushFlow_feasible hf hdab)
        (List.nodup_cons.mp hnd).2 ?_
      intro pr hpr
      have hmem := pathPairs_mem hpr
      have h1 : ¬(pr.1 = a ∧ pr.2 = b) := by
        rintro ⟨hc, -⟩
        exact ha_notin (hc ▸ hmem.1)
      have h2 : ¬(pr.1 = b ∧ pr.2 = a) := by
        rintro ⟨-, hc⟩
        exact ha_notin (hc ▸ hmem.2)
      rw [resid_pushFlow_other h1 h2]
      exact hpairs pr (by
        show pr ∈ pathPairs (a :: b :: rest)
        show pr ∈ (a, b) :: pathPairs (b :: rest)
        exact List.mem_cons_of_mem _ hpr)

theorem map_sum_congr {l : List String} {g₁ g₂ : String → Nat}
    (h : ∀ y ∈ l, g₂ y = g₁ y) : (l.map g₂).sum = (l.map g₁).sum := by
  induction l with
  | nil => rfl
  | cons c tl ih =>
    simp only [List.map_cons, List.sum_cons]
    rw [h c (List.mem_cons_self _ _), ih (fun y hy => h y (List.mem_cons_of_mem _ hy))]

theorem map_sum_update_add {l : List String} {g₁ g₂ : String → Nat} {b : String} {k : Nat}
    (hnd : l.Nodup) (hb : b ∈ l)
    (hsame : ∀ y ∈ l, y ≠ b → g₂ y = g₁ y) (hchg : g₂ b = g₁ b + k) :
    (l.map g₂).sum = (l.map g₁).sum + k := by
  induction l with
  | nil => cases hb
  | cons c tl ih =>
    simp only [List.map_cons, List.sum_cons]
    rcases List.mem_cons.mp hb with hc | hc
    · subst hc
      have htl : (tl.map g₂).sum = (tl.map g₁).sum := by
        refine map_sum_congr ?_
        intro y hy
        refine hsame y (List.mem_cons_of_mem _ hy) ?_
        intro he
        exact (List.nodup_cons.mp hnd).1 (he ▸ hy)
      rw [hchg, htl]
      omega
    · have hcb : c ≠ b := by
        intro he
        exact (List.nodup_cons.mp hnd).1 (he ▸ hc)
      rw [hsame c (List.mem_cons_self _ _) hcb,
        ih (List.nodup_cons.mp hnd).2 hc
          (fun y hy hyb => hsame y (List.mem_cons_of_mem _ hy) hyb)]
      omega

theorem map_sum_update_sub {l : List String} {g₁ g₂ : String → Nat} {b : String} {k : Nat}
    (hnd : l.Nodup) (hb : b ∈ l)
    (hsame : ∀ y ∈ l, y ≠ b → g₂ y = g₁ y) (hchg : g₂ b + k = g₁ b) :
    (l.map g₂).sum + k = (l.map g₁).sum := by
  induction l with
  | nil => cases hb
  | cons c tl ih =>
    simp only [List.map_cons, List.sum_cons]
    rcases List.mem_cons.mp hb with hc | hc
    · subst hc
      have htl : (tl.map g₂).sum = (tl.map g₁).sum := by
        refine map_sum_congr ?_
        intro y hy
        refine hsame y (List.mem_cons_of_mem _ hy) ?_
        intro he
        exact (List.nodup_cons.mp hnd).1 (he ▸ hy)
      rw [← hchg, htl]
      omega
    · have hcb : c ≠ b := by
        intro he
        exact (List.nodup_cons.mp hnd).1 (he ▸ hc)
      rw [hsame c (List.mem_cons_self _ _) hcb,
        ← ih (List.nodup_cons.mp hnd).2 hc
          (fun y hy hyb => hsame y (List.mem_cons_of_mem _ hy) hyb)]
      omega

theorem netOut_pushFlow {N : FlowNet} {f : FlowAssign} {a b : String} {d : Nat}
    (hnd : N.verts.Nodup) (ha : a ∈ N.verts) (hb : b ∈ N.verts) (hab : a ≠ b)
    (x : String) :
    netOut N (pushFlow f a b d) x =
      netOut N f x + (if x = a then (d : Int) else 0) - (if x = b then (d : Int) else 0) := by
  set r := min d (f b a) with hr
  have hrd : r ≤ d := Nat.min_le_left _ _
  have hrf : r ≤ f b a := Nat.min_le_right _ _
  by_cases hxa : x = a
  · subst hxa
    rw [if_pos rfl, if_neg hab]
    have hout : outflow N (pushFlow f x b d) x = outflow N f x + (d - r) := by
      refine map_sum_update_add hnd hb ?_ ?_
      · intro y _ hyb
        exact pushFlow_apply_other (fun hc => hab hc.1) (fun hc => hyb hc.2)
      · show pushFlow f x b d x b = f x b + (d - r)
        unfold pushFlow
        rw [if_neg (fun hc => hab hc.1), if_pos ⟨rfl, rfl⟩]
    have hin : inflow N (pushFlow f x b d) x + r = inflow N f x := by
      refine map_sum_update_sub hnd hb ?_ ?_
      · intro y _ hyb
        exact pushFlow_apply_other (fun hc => hyb hc.1) (fun hc => hab hc.2)
      · show pushFlow f x b d b x + r = f b x
        unfold pushFlow
        rw [if_pos ⟨rfl, rfl⟩]
        omega
    unfold netOut
    omega
  · by_cases hxb : x = b
    · subst hxb
      rw [if_neg hxa, if_pos rfl]
      have hout : outflow N (pushFlow f a x d) x + r = outflow N f x := by
        refine map_sum_update_sub hnd ha ?_ ?_
        · intro y _ hya
          exact pushFlow_apply_other (fun hc => hya hc.2) (fun hc => hxa hc.1)
        · show pushFlow f a x d x a + r = f x a
          unfold pushFlow
          rw [if_pos ⟨rfl, rfl⟩]
          omega
      have hin : inflow N (pushFlow f a x d) x = inflow N f x + (d - r) := by
        refine map_sum_update_add hnd ha ?_ ?_
        · intro y _ hya
          exact pushFlow_apply_other (fun hc => hxa hc.2) (fun hc => hya hc.1)
        · show pushFlow f a x d a x = f a x + (d - r)
          unfold pushFlow
          rw [if_neg (fun hc => hab hc.1), if_pos ⟨rfl, rfl⟩]
      unfold netOut
      omega
    · rw [if_neg hxa, if_neg hxb]
      have hout : outflow N (pushFlow f a b d) x = outflow N f x := by
        refine map_sum_congr ?_
        intro y _
        exact pushFlow_apply_other (fun hc => hxb hc.1) (fun hc => hxa hc.1)
      have hin : inflow N (pushFlow f a b d) x = inflow N f x := by
        refine map_sum_congr ?_
        intro y _
        exact pushFlow_apply_other (fun hc => hxa hc.2) (fun hc => hxb hc.2)
      unfold netOut
      rw [hout, hin]
      omega

theorem netOut_augment {N : FlowNet} {d : Nat} :
    ∀ (tail : List String) (a : String) (f : FlowAssign),
    N.verts.Nodup → (a :: tail).Nodup → (∀ y ∈ a :: tail, y ∈ N.verts) →
    ∀ x, netOut N (augment f (a :: tail) d) x =
      netOut N f x + (if x = a then (d : Int) else 0)
        - (if some x = (a :: tail).getLast? then (d : Int) else 0) := by
  intro tail
  induction tail with
  | nil =>
    intro a f _ _ _ x
    show netOut N f x = _
    by_cases hxa : x = a
    · simp [hxa]
    · simp [hxa]
  | cons b rest ih =>
    intro a f hndV hnd hmem x
    have hab : a ≠ b := by
      intro he
      exact (List.nodup_cons.mp hnd).1 (he ▸ List.mem_cons_self _ _)
    show netOut N (augment (pushFlow f a b d) (b :: rest) d) x = _
    rw [ih b (pushFlow f a b d) hndV (List.nodup_cons.mp hnd).2
      (fun y hy => hmem y (List.mem_cons_of_mem _ hy))]
    rw [netOut_pushFlow hndV (hmem a (List.mem_cons_self _ _))
      (hmem b (List.mem_cons_of_mem _ (List.mem_cons_self _ _))) hab]
    rw [List.getLast?_cons_cons]
    split_ifs <;> omega

theorem ekLoop_feasible_conserving (N : FlowNet) (s t : String)
    (hndV : N.verts.Nodup) (hs : s ∈ N.verts) (ht : t ∈ N.verts) :
    ∀ (fuel : Nat) (f : FlowAssign), Feasible N f →
    (∀ x, x ≠ s → x ≠ t → netOut N f x = 0) →
    Feasible N (ekLoop N s t fuel f) ∧
    (∀ x, x ≠ s → x ≠ t → netOut N (ekLoop N s t fuel f) x = 0) := by
  intro fuel
  induction fuel with
  | zero =>
    intro f hf hc
    exact ⟨hf, hc⟩
  | succ fuel ih =>
    intro f hf hc
    cases hp : findAugPath N f s t with
    | none =>
      have hred : ekLoop N s t (fuel + 1) f = f := by
        rw [ekLoop, hp]
      rw [hred]
      exact ⟨hf, hc⟩
    | some p =>
      have hred : ekLoop N s t (fuel + 1) f =
          if bottleneck N f p = 0 then f
          else ekLoop N s t fuel (augment f p (bottleneck N f p)) := by
        rw [ekLoop, hp]
      rw [hred]
      by_cases hd : bottleneck N f p = 0
      · rw [if_pos hd]
        exact ⟨hf, hc⟩
      · rw [if_neg hd]
        obtain ⟨hhead, hlast, hnodup, hchain, hmemp⟩ := findAugPath_sound hp
        cases hpcons : p with
        | nil =>
          subst hpcons
          exact absurd hhead (by simp)
        | cons a tail =>
          subst hpcons
          have has : a = s := by simpa using hhead
          subst has
          have hmem' : ∀ y ∈ a :: tail, y ∈ N.verts := by
            intro y hy
            rcases hmemp y hy with h | h
            · exact h ▸ hs
            · exact h
          have hfeas : Feasible N (augment f (a :: tail) (bottleneck N f (a :: tail))) := by
            refine augment_feasible _ f hf hnodup ?_
            intro pr hpr
            exact bottleneck_le_resid hpr
          have hcons : ∀ x, x ≠ a → x ≠ t →
              netOut N (augment f (a :: tail) (bottleneck N f (a :: tail))) x = 0 := by
            intro x hxs hxt
            rw [netOut_augment tail a f hndV hnodup hmem' x]
            rw [if_neg hxs, if_neg ?hlast]
            case hlast =>
              intro hx
              rw [hlast] at hx
              exact hxt (Option.some.inj hx)
            rw [hc x hxs hxt]
            ring
          exact ih (augment f (a :: tail) (bottleneck N f (a :: tail))) hfeas hcons

/-- C2: on any reduced network (distinct vertices containing the
designated super source and super sink), the flow assignment returned
by the solver is capacity-respecting on every ordered pair — hence
non-negative and supported on the arcs — and conserves flow at every
vertex other than the super source and super sink. -/
theorem claim_C2 (N : FlowNet) (s t : String)
    (hndV : N.verts.Nodup) (hs : s ∈ N.verts) (ht : t ∈ N.verts) :
    (∀ u v, (maximum_flow N s t).2 u v ≤ N.cap u v) ∧
    (∀ x, x ≠ s → x ≠ t →
      inflow N (maximum_flow N s t).2 x = outflow N (maximum_flow N s t).2 x) := by
  have h := ekLoop_feasible_conserving N s t hndV hs ht (N.capSum + 1) (fun _ _ => 0)
    (fun u v => Nat.zero_le _)
    (by
      intro x _ _
      unfold netOut inflow outflow
      simp)
  constructor
  · exact h.1
  · intro x hxs hxt
    have hx := h.2 x hxs hxt
    unfold netOut at hx
    show inflow N (ekLoop N s t (N.capSum + 1) (fun _ _ => 0)) x =
      outflow N (ekLoop N s t (N.capSum + 1) (fun _ _ => 0)) x
    omega

/-- C2 witness: the reduced network of the fixed example graph. -/
theorem claim_C2_witness :
    (∀ u v, (maximum_flow
        (DiGraph.mk (redNodes build_random_gas_network)
          (redEdges build_random_gas_network)).toFlowNet
        super_source super_sink).2 u v ≤
      (DiGraph.mk (redNodes build_random_gas_network)
        (redEdges build_random_gas_network)).toFlowNet.cap u v) ∧
    (∀ x, x ≠ super_source → x ≠ super_sink →
      inflow (DiGraph.mk (redNodes build_random_gas_network)
          (redEdges build_random_gas_network)).toFlowNet
        (maximum_flow (DiGraph.mk (redNodes build_random_gas_network)
          (redEdges build_random_gas_network)).toFlowNet
          super_source super_sink).2 x =
      outflow (DiGraph.mk (redNodes build_random_gas_network)
          (redEdges build_random_gas_network)).toFlowNet
        (maximum_flow (DiGraph.mk (redNodes build_random_gas_network)
          (redEdges build_random_gas_network)).toFlowNet
          super_source super_sink).2 x) :=
  claim_C2 _ super_source super_sink (by decide) (by decide) (by decide)

set_option maxRecDepth 200000 in
/-- C8: on the fixed example network the pipeline (transform, then
solve between the super nodes) returns the total flow value 17000,
which is at most the total demand 18000 and at most the total
production 17000. -/
theorem claim_C8 :
    ∃ v, demo_flow_value build_random_gas_network = .ok v ∧
      v ≤ 18000 ∧ v ≤ 17000 := by
  refine ⟨17000, ?_, by norm_num, by norm_num⟩
  rfl

theorem arcConv_mem {es : List (String × String × Option Int)}
    {a : String × String × Nat}
    (h : a ∈ es.filterMap arcConv) :
    ∃ e ∈ es, a.1 = e.1 ∧ a.2.1 = e.2.1 := by
  obtain ⟨e, he, hconv⟩ := List.mem_filterMap.mp h
  unfold arcConv at hconv
  obtain ⟨c, hc, hface⟩ := Option.map_eq_some'.mp hconv
  exact ⟨e, he, by rw [← hface], by rw [← hface]⟩

/-- The extraction block of the reduced edge list, converted to arcs and
filtered by the key of sink `p`, is exactly `p`'s extraction arc. -/
theorem ext_block_filter (p : String × NodeAttrs) (d : Int) :
    ∀ (l : List (String × NodeAttrs)), (l.map Prod.fst).Nodup →
    p ∈ l → p.2.kind = some "sink" → p.2.demand = some d →
    ((extEdges l).filterMap arcConv).filter
      (fun a => a.1 == out_name p.1 && a.2.1 == super_sink) =
      [(out_name p.1, super_sink, d.toNat)] := by
  intro l
  induction l with
  | nil => intro _ hp; cases hp
  | cons q tl ih =>
    intro hnd hp hk hd
    have hnd' : (tl.map Prod.fst).Nodup := (List.nodup_cons.mp hnd).2
    have hq_notin : q.1 ∉ tl.map Prod.fst := (List.nodup_cons.mp hnd).1
    rcases List.mem_cons.mp hp with hpq | hptl
    · subst hpq
      have hext : extEdges (p :: tl) =
          (out_name p.1, super_sink, p.2.demand) :: extEdges tl := by
        unfold extEdges
        rw [List.filter_cons, if_pos (by simp [hk])]
        simp
      rw [hext]
      have hconv : arcConv (out_name p.1, super_sink, p.2.demand) =
          some (out_name p.1, super_sink, d.toNat) := by
        unfold arcConv
        rw [hd]
        rfl
      rw [List.filterMap_cons, hconv]
      rw [List.filter_cons, if_pos (by simp)]
      have hrest : ((extEdges tl).filterMap arcConv).filter
          (fun a => a.1 == out_name p.1 && a.2.1 == super_sink) = [] := by
        rw [List.filter_eq_nil_iff]
        intro a ha
        obtain ⟨e, he, ha1, _⟩ := arcConv_mem ha
        unfold extEdges at he
        obtain ⟨r, hr, hre⟩ := List.mem_map.mp he
        have hr1 : r.1 ∈ tl.map Prod.fst :=
          List.mem_map_of_mem Prod.fst (List.mem_filter.mp hr).1
        have hne : out_name r.1 ≠ out_name p.1 := by
          intro he'
          exact hq_notin ((out_name_inj he') ▸ hr1)
        simp only [Bool.and_eq_true, beq_iff_eq, not_and]
        intro hc
        rw [ha1, ← hre] at hc
        exact absurd hc hne
      rw [hrest]
    · have hq1 : q.1 ≠ p.1 := by
        intro he
        exact hq_notin (he ▸ List.mem_map_of_mem Prod.fst hptl)
      by_cases hqk : q.2.kind = some "sink"
      · have hext : extEdges (q :: tl) =
            (out_name q.1, super_sink, q.2.demand) :: extEdges tl := by
          unfold extEdges
          rw [List.filter_cons, if_pos (by simp [hqk])]
          simp
        rw [hext]
        cases hqd : q.2.demand with
        | none =>
          have hconv : arcConv (out_name q.1, super_sink, none) = none := rfl
          rw [List.filterMap_cons, hconv]
          exact ih hnd' hptl hk hd
        | some dq =>
          have hconv : arcConv (out_name q.1, super_sink, some dq) =
              some (out_name q.1, super_sink, dq.toNat) := rfl
          rw [List.filterMap_cons, hconv]
          rw [List.filter_cons, if_neg (by
            simp only [Bool.and_eq_true, beq_iff_eq, not_and]
            intro hc
            exact absurd (out_name_inj hc) hq1)]
          exact ih hnd' hptl hk hd
      · have hext : extEdges (q :: tl) = extEdges tl := by
          unfold extEdges
          rw [List.filter_cons, if_neg (by simp [hqk])]
        rw [hext]
        exact ih hnd' hptl hk hd

/-- The capacity of a sink's extraction arc in the solved network is
exactly the sink's demand. -/
theorem extraction_cap (B F : DiGraph) (hWF : WFBase B)
    (hok : build_flow_network_with_node_capacities B = .ok F)
    (p : String × NodeAttrs) (hp : p ∈ B.nodes) (hk : p.2.kind = some "sink")
    (d : Int) (hd : p.2.demand = some d) :
    F.toFlowNet.cap (out_name p.1) super_sink = d.toNat := by
  have hA : AttrsOK B := (build_ok_iff B).mp ⟨F, hok⟩
  have hchar := build_ok_char B hWF hA
  rw [hok] at hchar
  have hFe : F = { nodes := redNodes B, edges := redEdges B } := by
    injection hchar
  subst hFe
  show ((((redEdges B).filterMap arcConv).filter
    (fun a => a.1 == out_name p.1 && a.2.1 == super_sink)).map
      (fun a => a.2.2)).sum = d.toNat
  have hsplit : (redEdges B).filterMap arcConv =
      (internalEdges B.nodes).filterMap arcConv
      ++ (transEdges B.edges).filterMap arcConv
      ++ (injEdges B.nodes).filterMap arcConv
      ++ (extEdges B.nodes).filterMap arcConv := by
    unfold redEdges
    rw [List.filterMap_append, List.filterMap_append, List.filterMap_append]
  rw [hsplit]
  rw [List.filter_append, List.filter_append, List.filter_append]
  have h1 : ((internalEdges B.nodes).filterMap arcConv).filter
      (fun a => a.1 == out_name p.1 && a.2.1 == super_sink) = [] := by
    rw [List.filter_eq_nil_iff]
    intro a ha
    obtain ⟨e, he, ha1, _⟩ := arcConv_mem ha
    unfold internalEdges at he
    obtain ⟨q, _, hqe⟩ := List.mem_map.mp he
    simp only [Bool.and_eq_true, beq_iff_eq, not_and]
    intro hc
    rw [ha1, ← hqe] at hc
    exact absurd hc.symm (in_name_ne_out_name q.1 p.1).symm
  have h2 : ((transEdges B.edges).filterMap arcConv).filter
      (fun a => a.1 == out_name p.1 && a.2.1 == super_sink) = [] := by
    rw [List.filter_eq_nil_iff]
    intro a ha
    obtain ⟨e, he, _, ha2⟩ := arcConv_mem ha
    unfold transEdges at he
    obtain ⟨q, _, hqe⟩ := List.mem_map.mp he
    simp only [Bool.and_eq_true, beq_iff_eq, not_and]
    intro _ hc
    rw [ha2, ← hqe] at hc
    exact absurd hc (super_sink_ne_in_name q.2.1).symm
  have h3 : ((injEdges B.nodes).filterMap arcConv).filter
      (fun a => a.1 == out_name p.1 && a.2.1 == super_sink) = [] := by
    rw [List.filter_eq_nil_iff]
    intro a ha
    obtain ⟨e, he, ha1, _⟩ := arcConv_mem ha
    unfold injEdges at he
    obtain ⟨q, _, hqe⟩ := List.mem_map.mp he
    simp only [Bool.and_eq_true, beq_iff_eq, not_and]
    intro hc
    rw [ha1, ← hqe] at hc
    exact absurd hc (super_source_ne_out_name p.1)
  rw [h1, h2, h3, ext_block_filter p d B.nodes hWF.1 hp hk hd]
  simp

/-- The solver always returns a capacity-respecting flow (no
wellformedness needed). -/
theorem ekLoop_feasible (N : FlowNet) (s t : String) :
    ∀ (fuel : Nat) (f : FlowAssign), Feasible N f →
    Feasible N (ekLoop N s t fuel f) := by
  intro fuel
  induction fuel with
  | zero => intro f hf; exact hf
  | succ fuel ih =>
    intro f hf
    cases hp : findAugPath N f s t with
    | none =>
      have hred : ekLoop N s t (fuel + 1) f = f := by
        rw [ekLoop, hp]
      rw [hred]
      exact hf
    | some p =>
      have hred : ekLoop N s t (fuel + 1) f =
          if bottleneck N f p = 0 then f
          else ekLoop N s t fuel (augment f p (bottleneck N f p)) := by
        rw [ekLoop, hp]
      rw [hred]
      by_cases hd : bottleneck N f p = 0
      · rw [if_pos hd]
        exact hf
      · rw [if_neg hd]
        obtain ⟨hhead, hlast, hnodup, hchain, hmemp⟩ := findAugPath_sound hp
        refine ih (augment f p (bottleneck N f p)) ?_
        refine augment_feasible _ f hf hnodup ?_
        intro pr hpr
        exact bottleneck_le_resid hpr

theorem maximum_flow_feasible (N : FlowNet) (s t : String) :
    Feasible N (maximum_flow N s t).2 :=
  ekLoop_feasible N s t (N.capSum + 1) (fun _ _ => 0) (fun u v => Nat.zero_le _)

/-- C6: for every sink of a successfully transformed base graph, the
amount delivered — the solver's flow on the extraction edge
`n_out -> super_sink` — never exceeds the sink's demand, and the demo
report contains the row `(sink, demand, delivered,
max(0, demand - delivered))` for it. -/
theorem claim_C6 (B F : DiGraph) (hWF : WFBase B)
    (hok : build_flow_network_with_node_capacities B = .ok F)
    (p : String × NodeAttrs) (hp : p ∈ B.nodes) (hk : p.2.kind = some "sink")
    (d : Int) (hd : p.2.demand = some d) (hd0 : 0 ≤ d) :
    ∃ rows, demo_sink_rows B = .ok rows ∧
      (((maximum_flow F.toFlowNet super_source super_sink).2
          (out_name p.1) super_sink : Nat) : Int) ≤ d ∧
      (p.1, d,
        (((maximum_flow F.toFlowNet super_source super_sink).2
            (out_name p.1) super_sink : Nat) : Int),
        max 0 (d - (((maximum_flow F.toFlowNet super_source super_sink).2
            (out_name p.1) super_sink : Nat) : Int))) ∈ rows := by
  have hsolve : solve_base B = .ok (maximum_flow F.toFlowNet super_source super_sink) := by
    simp [solve_base, hok, Except.map]
  have hrows : demo_sink_rows B = .ok
      ((B.nodes.filter (fun q => q.2.kind == some "sink")).map (fun q =>
        let demand : Int := q.2.demand.getD 0
        let delivered : Int :=
          ((maximum_flow F.toFlowNet super_source super_sink).2 (out_name q.1) super_sink : Nat)
        (q.1, demand, delivered, max 0 (demand - delivered)))) := by
    simp [demo_sink_rows, hsolve, Except.map]
  refine ⟨_, hrows, ?_, ?_⟩
  · have hfeas := maximum_flow_feasible F.toFlowNet super_source super_sink
    have hcap := extraction_cap B F hWF hok p hp hk d hd
    have hle := hfeas (out_name p.1) super_sink
    rw [hcap] at hle
    calc (((maximum_flow F.toFlowNet super_source super_sink).2
        (out_name p.1) super_sink : Nat) : Int) ≤ (d.toNat : Int) := by
          exact_mod_cast hle
    _ = d := Int.toNat_of_nonneg hd0
  · refine List.mem_map.mpr ⟨p, ?_, ?_⟩
    · exact List.mem_filter.mpr ⟨hp, by simp [hk]⟩
    · simp [hd]

set_option maxRecDepth 40000 in
/-- C6 witness: the sink `sink_0` (demand 6000) of the example
network. -/
theorem claim_C6_witness :
    ∃ rows, demo_sink_rows build_random_gas_network = .ok rows ∧
      (((maximum_flow (DiGraph.mk (redNodes build_random_gas_network)
          (redEdges build_random_gas_network)).toFlowNet super_source super_sink).2
          (out_name "sink_0") super_sink : Nat) : Int) ≤ 6000 ∧
      ("sink_0", (6000 : Int),
        (((maximum_flow (DiGraph.mk (redNodes build_random_gas_network)
            (redEdges build_random_gas_network)).toFlowNet super_source super_sink).2
            (out_name "sink_0") super_sink : Nat) : Int),
        max 0 (6000 - (((maximum_flow (DiGraph.mk (redNodes build_random_gas_network)
            (redEdges build_random_gas_network)).toFlowNet super_source super_sink).2
            (out_name "sink_0") super_sink : Nat) : Int))) ∈ rows :=
  claim_C6 build_random_gas_network _ ⟨by decide, by decide, by decide⟩ rfl
    ("sink_0", { kind := some "sink", node_capacity := some 7000, demand := some 6000 })
    (by decide) (by decide) 6000 (by decide) (by decide)

theorem bfsAug_none_closed (N : FlowNet) (f : FlowAssign) (s t : String)
    (hv : N.verts.Nodup) :
    ∀ (fuel : Nat) (queue : List (List String)) (visited : List String),
    (∀ q ∈ queue, q ≠ []) →
    (∀ x ∈ visited, (∀ y ∈ rsuccs N f x, y ∈ visited) ∨
      x ∈ queue.filterMap List.head?) →
    (t ∈ visited → t ∈ queue.filterMap List.head?) →
    visited.Nodup →
    (∀ x ∈ visited, x ∈ N.verts) →
    s ∈ visited →
    (queue.length + N.verts.length + 1 ≤ fuel + visited.length) →
    bfsAug N f t fuel queue visited = none →
    ∃ R, ResidClosed N f s t R := by
  intro fuel
  induction fuel with
  | zero =>
    intro queue visited hne hclosed htv hnd hsub hsV hbudget h
    cases queue with
    | nil =>
      refine ⟨visited, hsV, ?_, hsub, ?_⟩
      · intro htv'
        have := htv htv'
        simp at this
      · intro x hx y hy
        rcases hclosed x hx with hcl | hcl
        · exact hcl y hy
        · simp at hcl
    | cons q rest =>
      exfalso
      have hlen : visited.length ≤ N.verts.length :=
        (List.subperm_of_subset hnd hsub).length_le
      simp only [List.length_cons] at hbudget
      omega
  | succ fuel ih =>
    intro queue visited hne hclosed htv hnd hsub hsV hbudget h
    cases queue with
    | nil =>
      refine ⟨visited, hsV, ?_, hsub, ?_⟩
      · intro htv'
        have := htv htv'
        simp at this
      · intro x hx y hy
        rcases hclosed x hx with hcl | hcl
        · exact hcl y hy
        · simp at hcl
    | cons q rest =>
      cases hq : q with
      | nil => exact absurd hq (hne q (List.mem_cons_self _ _))
      | cons x q' =>
        subst hq
        simp only [bfsAug] at h
        by_cases hx : x = t
        · rw [if_pos hx] at h
          exact Option.noConfusion h
        · rw [if_neg hx] at h
          set ns := (rsuccs N f x).filter (fun y => decide (y ∉ visited)) with hns
          have hns_sub : ∀ y ∈ ns, y ∈ rsuccs N f x ∧ y ∉ visited := by
            intro y hy
            have := List.mem_filter.mp hy
            exact ⟨this.1, by simpa using this.2⟩
          have hns_nodup : ns.Nodup := by
            refine List.Nodup.filter _ ?_
            exact List.Nodup.filter _ hv
          refine ih (rest ++ ns.map (fun y => y :: x :: q')) (visited ++ ns)
            ?_ ?_ ?_ ?_ ?_ ?_ ?_ h
          · intro r hr
            rcases List.mem_append.mp hr with hr | hr
            · exact hne r (List.mem_cons_of_mem _ hr)
            · obtain ⟨y, _, hy⟩ := List.mem_map.mp hr
              rw [← hy]
              simp
          · intro z hz
            have hheads : ((rest ++ ns.map (fun y => y :: x :: q')).filterMap
                List.head?) = rest.filterMap List.head? ++ ns := by
              rw [List.filterMap_append]
              congr 1
              rw [List.filterMap_map]
              have : List.head? ∘ (fun y => y :: x :: q') = fun y => some y := rfl
              rw [this]
              simp [List.filterMap_some]
            rw [hheads]
            rcases List.mem_append.mp hz with hz | hz
            · rcases hclosed z hz with hcl | hcl
              · exact Or.inl (fun y hy => List.mem_append_left _ (hcl y hy))
              · simp only [List.filterMap_cons] at hcl
                simp only [List.head?] at hcl
                rcases List.mem_cons.mp hcl with hzx | hzr
                · subst hzx
                  refine Or.inl ?_
                  intro y hy
                  by_cases hyv : y ∈ visited
                  · exact List.mem_append_left _ hyv
                  · refine List.mem_append_right _ ?_
                    rw [hns]
                    exact List.mem_filter.mpr ⟨hy, by simpa using hyv⟩
                · exact Or.inr (List.mem_append_left _ hzr)
            · exact Or.inr (List.mem_append_right _ hz)
          · intro htz
            have hheads : ((rest ++ ns.map (fun y => y :: x :: q')).filterMap
                List.head?) = rest.filterMap List.head? ++ ns := by
              rw [List.filterMap_append]
              congr 1
              rw [List.filterMap_map]
              have : List.head? ∘ (fun y => y :: x :: q') = fun y => some y := rfl
              rw [this]
              simp [List.filterMap_some]
            rw [hheads]
            rcases List.mem_append.mp htz with htz | htz
            · have := htv htz
              simp only [List.filterMap_cons] at this
              simp only [List.head?] at this
              rcases List.mem_cons.mp this with hzx | hzr
              · exact absurd hzx.symm hx
              · exact List.mem_append_left _ hzr
            · exact List.mem_append_right _ htz
          · rw [List.nodup_append]
            refine ⟨hnd, hns_nodup, ?_⟩
            intro z hz hz'
            exact (hns_sub z hz').2 hz
          · intro z hz
            rcases List.mem_append.mp hz with hz | hz
            · exact hsub z hz
            · exact (mem_rsuccs (hns_sub z hz).1).1
          · exact List.mem_append_left _ hsV
          · have h1 : (rest ++ ns.map (fun y => y :: x :: q')).length =
                rest.length + ns.length := by
              simp
            have h2 : (visited ++ ns).length = visited.length + ns.length := by
              simp
            have h3 : ((x :: q') :: rest).length = rest.length + 1 := by
              simp
            omega

theorem findAugPath_none_closed {N : FlowNet} {f : FlowAssign} {s t : String}
    (hv : N.verts.Nodup) (hs : s ∈ N.verts)
    (h : findAugPath N f s t = none) :
    ∃ R, ResidClosed N f s t R := by
  refine bfsAug_none_closed N f s t hv (N.verts.length + 2) [[s]] [s]
    ?_ ?_ ?_ ?_ ?_ ?_ ?_ h
  · intro q hq
    simp at hq
    simp [hq]
  · intro x hx
    right
    simp at hx
    simp [hx, List.head?]
  · intro ht
    simp at ht
    simp [ht, List.head?]
  · simp
  · intro x hx
    simp at hx
    exact hx ▸ hs
  · simp
  · simp
    omega

theorem outflow_eq_finsum {N : FlowNet} (hv : N.verts.Nodup) (f : FlowAssign)
    (x : String) :
    (outflow N f x : Int) = Finset.sum (Vfin N) (fun y => (f x y : Int)) := by
  unfold outflow Vfin
  rw [List.sum_toFinset _ hv]
  rw [Nat.cast_list_sum, List.map_map]
  rfl

theorem inflow_eq_finsum {N : FlowNet} (hv : N.verts.Nodup) (f : FlowAssign)
    (x : String) :
    (inflow N f x : Int) = Finset.sum (Vfin N) (fun y => (f y x : Int)) := by
  unfold inflow Vfin
  rw [List.sum_toFinset _ hv]
  rw [Nat.cast_list_sum, List.map_map]
  rfl

theorem netOut_eq_finsum {N : FlowNet} (hv : N.verts.Nodup) (f : FlowAssign)
    (x : String) :
    netOut N f x = Finset.sum (Vfin N) (fun y => (f x y : Int) - (f y x : Int)) := by
  unfold netOut
  rw [outflow_eq_finsum hv, inflow_eq_finsum hv, Finset.sum_sub_distrib]

/-- Partition identity: the net outflow of the source equals the net
flow across any source-sink-separating cut. -/
theorem value_eq_netAcross {N : FlowNet} {f : FlowAssign} {s t : String}
    (hv : N.verts.Nodup)
    (hcons : ∀ x, x ≠ s → x ≠ t → netOut N f x = 0)
    (S : Finset String) (hS : S ⊆ Vfin N) (hsS : s ∈ S) (htS : t ∉ S) :
    netOut N f s =
      Finset.sum S (fun x => Finset.sum (Vfin N \ S)
        (fun y => (f x y : Int) - (f y x : Int))) := by
  have hstep1 : Finset.sum S (fun x => netOut N f x) = netOut N f s := by
    refine Finset.sum_eq_single_of_mem s hsS ?_
    intro b hb hbs
    refine hcons b hbs ?_
    intro hbt
    exact htS (hbt ▸ hb)
  have hstep2 : Finset.sum S (fun x => netOut N f x) =
      Finset.sum S (fun x => Finset.sum (Vfin N)
        (fun y => (f x y : Int) - (f y x : Int))) := by
    refine Finset.sum_congr rfl ?_
    intro x _
    exact netOut_eq_finsum hv f x
  have hsplit : ∀ x, Finset.sum (Vfin N) (fun y => (f x y : Int) - (f y x : Int)) =
      Finset.sum (Vfin N \ S) (fun y => (f x y : Int) - (f y x : Int))
      + Finset.sum S (fun y => (f x y : Int) - (f y x : Int)) := by
    intro x
    rw [Finset.sum_sdiff hS]
  have hcancel : Finset.sum S (fun x => Finset.sum S
      (fun y => (f x y : Int) - (f y x : Int))) = 0 := by
    have h1 : Finset.sum S (fun x => Finset.sum S
        (fun y => (f x y : Int) - (f y x : Int))) =
        Finset.sum S (fun x => Finset.sum S (fun y => (f x y : Int)))
        - Finset.sum S (fun x => Finset.sum S (fun y => (f y x : Int))) := by
      rw [← Finset.sum_sub_distrib]
      refine Finset.sum_congr rfl ?_
      intro x _
      rw [Finset.sum_sub_distrib]
    rw [h1, Finset.sum_comm]
    ring
  rw [← hstep1, hstep2]
  calc Finset.sum S (fun x => Finset.sum (Vfin N)
        (fun y => (f x y : Int) - (f y x : Int)))
      = Finset.sum S (fun x =>
          Finset.sum (Vfin N \ S) (fun y => (f x y : Int) - (f y x : Int))
          + Finset.sum S (fun y => (f x y : Int) - (f y x : Int))) := by
        refine Finset.sum_congr rfl ?_
        intro x _
        exact hsplit x
    _ = Finset.sum S (fun x => Finset.sum (Vfin N \ S)
          (fun y => (f x y : Int) - (f y x : Int)))
        + Finset.sum S (fun x => Finset.sum S
          (fun y => (f x y : Int) - (f y x : Int))) := Finset.sum_add_distrib
    _ = Finset.sum S (fun x => Finset.sum (Vfin N \ S)
          (fun y => (f x y : Int) - (f y x : Int))) := by
        rw [hcancel]
        ring

/-- Weak duality: any conserving, capacity-respecting flow is bounded
by the capacity of any separating cut. -/
theorem value_le_capAcross {N : FlowNet} {f : FlowAssign} {s t : String}
    (hv : N.verts.Nodup) (hf : Feasible N f)
    (hcons : ∀ x, x ≠ s → x ≠ t → netOut N f x = 0)
    (S : Finset String) (hS : S ⊆ Vfin N) (hsS : s ∈ S) (htS : t ∉ S) :
    netOut N f s ≤ capAcross N S := by
  rw [value_eq_netAcross hv hcons S hS hsS htS]
  unfold capAcross
  refine Finset.sum_le_sum ?_
  intro x _
  refine Finset.sum_le_sum ?_
  intro y _
  have h1 : (f x y : Int) ≤ (N.cap x y : Int) := by exact_mod_cast hf x y
  have h2 : (0 : Int) ≤ (f y x : Int) := by positivity
  omega

/-- Exactness at a saturated cut: when every forward crossing arc is
full and every backward crossing arc empty, the value equals the cut
capacity. -/
theorem value_eq_capAcross {N : FlowNet} {f : FlowAssign} {s t : String}
    (hv : N.verts.Nodup)
    (hcons : ∀ x, x ≠ s → x ≠ t → netOut N f x = 0)
    (S : Finset String) (hS : S ⊆ Vfin N) (hsS : s ∈ S) (htS : t ∉ S)
    (hsat : ∀ x ∈ S, ∀ y ∈ Vfin N \ S, f x y = N.cap x y ∧ f y x = 0) :
    netOut N f s = capAcross N S := by
  rw [value_eq_netAcross hv hcons S hS hsS htS]
  unfold capAcross
  refine Finset.sum_congr rfl ?_
  intro x hx
  refine Finset.sum_congr rfl ?_
  intro y hy
  obtain ⟨h1, h2⟩ := hsat x hx y hy
  rw [h1, h2]
  simp

theorem cap_cons (verts : List String) (a : String × String × Nat)
    (rest : List (String × String × Nat)) (u v : String) :
    FlowNet.cap ⟨verts, a :: rest⟩ u v =
      (if a.1 = u ∧ a.2.1 = v then a.2.2 else 0) + FlowNet.cap ⟨verts, rest⟩ u v := by
  show (((a :: rest).filter (fun x => x.1 == u && x.2.1 == v)).map (fun x => x.2.2)).sum = _
  rw [List.filter_cons]
  by_cases h : a.1 = u ∧ a.2.1 = v
  · rw [if_pos (by simp [h.1, h.2]), if_pos h]
    simp only [List.map_cons, List.sum_cons]
    rfl
  · have hb : (a.1 == u && a.2.1 == v) = false := by
      rcases not_and_or.mp h with h' | h' <;> simp [h']
    rw [hb, if_neg h, if_neg (fun hc : (false = true) => Bool.noConfusion hc)]
    show FlowNet.cap ⟨verts, rest⟩ u v = 0 + FlowNet.cap ⟨verts, rest⟩ u v
    omega

theorem sum_map_add (l : List String) (g h : String → Nat) :
    (l.map (fun v => g v + h v)).sum = (l.map g).sum + (l.map h).sum := by
  induction l with
  | nil => rfl
  | cons c tl ih =>
    simp only [List.map_cons, List.sum_cons, ih]
    omega

theorem sum_indicator (l : List String) (hv : l.Nodup) (c : String) (k : Nat) :
    (l.map (fun v => if c = v then k else 0)).sum = if c ∈ l then k else 0 := by
  induction l with
  | nil => simp
  | cons d tl ih =>
    simp only [List.map_cons, List.sum_cons]
    by_cases hcd : c = d
    · subst hcd
      rw [if_pos rfl, if_pos (List.mem_cons_self _ _)]
      have : (tl.map (fun v => if c = v then k else 0)).sum = 0 := by
        have h0 : ∀ v ∈ tl, (if c = v then k else 0) = 0 := by
          intro v hvtl
          rw [if_neg]
          intro he
          exact (List.nodup_cons.mp hv).1 (he ▸ hvtl)
        rw [map_sum_congr h0]
        simp
      rw [this]
      omega
    · rw [if_neg hcd, ih (List.nodup_cons.mp hv).2]
      by_cases hctl : c ∈ tl
      · rw [if_pos hctl, if_pos (List.mem_cons_of_mem _ hctl)]
        omega
      · rw [if_neg hctl, if_neg (by
          intro hc
          rcases List.mem_cons.mp hc with h' | h'
          · exact hcd h'
          · exact hctl h')]

theorem sum_cap_le (verts : List String) (hv : verts.Nodup) (s : String) :
    ∀ arcs : List (String × String × Nat),
    (verts.map (fun v => FlowNet.cap ⟨verts, arcs⟩ s v)).sum ≤
      (arcs.map (fun a => a.2.2)).sum := by
  intro arcs
  induction arcs with
  | nil =>
    have : ∀ v ∈ verts, FlowNet.cap ⟨verts, []⟩ s v = 0 := by
      intro v _
      rfl
    rw [map_sum_congr this]
    simp
  | cons a rest ih =>
    have hsplit : (verts.map (fun v => FlowNet.cap ⟨verts, a :: rest⟩ s v)).sum =
        (verts.map (fun v => if a.1 = s ∧ a.2.1 = v then a.2.2 else 0)).sum +
        (verts.map (fun v => FlowNet.cap ⟨verts, rest⟩ s v)).sum := by
      rw [← sum_map_add]
      refine congrArg _ ?_
      refine List.map_congr_left ?_
      intro v _
      rw [cap_cons]
    rw [hsplit]
    simp only [List.map_cons, List.sum_cons]
    have hind : (verts.map (fun v => if a.1 = s ∧ a.2.1 = v then a.2.2 else 0)).sum ≤
        a.2.2 := by
      by_cases ha : a.1 = s
      · have : (verts.map (fun v => if a.1 = s ∧ a.2.1 = v then a.2.2 else 0)) =
            (verts.map (fun v => if a.2.1 = v then a.2.2 else 0)) := by
          refine List.map_congr_left ?_
          intro v _
          by_cases hv2 : a.2.1 = v
          · rw [if_pos ⟨ha, hv2⟩, if_pos hv2]
          · rw [if_neg (fun hc => hv2 hc.2), if_neg hv2]
        rw [this, sum_indicator verts hv]
        split_ifs <;> omega
      · have : ∀ v ∈ verts, (if a.1 = s ∧ a.2.1 = v then a.2.2 else 0) = 0 := by
          intro v _
          rw [if_neg (fun hc => ha hc.1)]
        rw [map_sum_congr this]
        simp
    omega

theorem netOut_le_capSum {N : FlowNet} (hv : N.verts.Nodup) {f : FlowAssign}
    (hf : Feasible N f) (s : String) :
    netOut N f s ≤ (N.capSum : Int) := by
  unfold netOut
  have h1 : outflow N f s ≤ (N.verts.map (fun v => N.cap s v)).sum := by
    unfold outflow
    refine List.sum_le_sum ?_
    intro v _
    exact hf s v
  have h2 : (N.verts.map (fun v => N.cap s v)).sum ≤ N.capSum := by
    have := sum_cap_le N.verts hv s N.arcs
    unfold FlowNet.capSum
    convert this using 2
  omega

theorem foldl_min_pos : ∀ (rs : List Nat) (r : Nat), 0 < r → (∀ x ∈ rs, 0 < x) →
    0 < rs.foldl min r := by
  intro rs
  induction rs with
  | nil => intro r hr _; exact hr
  | cons c tl ih =>
    intro r hr hall
    show 0 < tl.foldl min (min r c)
    refine ih (min r c) ?_ ?_
    · exact lt_min hr (hall c (List.mem_cons_self _ _))
    · intro x hx
      exact hall x (List.mem_cons_of_mem _ hx)

theorem bottleneck_pos {N : FlowNet} {f : FlowAssign} {a b : String}
    {tail : List String}
    (hchain : List.Chain' (fun x y => 0 < resid N f x y) (a :: b :: tail)) :
    0 < bottleneck N f (a :: b :: tail) := by
  have hpairs := chain'_pathPairs hchain
  show 0 < match (pathPairs (a :: b :: tail)).map (fun e => resid N f e.1 e.2) with
    | [] => 0
    | r :: rs => rs.foldl min r
  have hpp : pathPairs (a :: b :: tail) = (a, b) :: pathPairs (b :: tail) := rfl
  rw [hpp]
  simp only [List.map_cons]
  refine foldl_min_pos _ _ ?_ ?_
  · exact hpairs (a, b) (by rw [hpp]; exact List.mem_cons_self _ _)
  · intro x hx
    obtain ⟨pr, hpr, hpx⟩ := List.mem_map.mp hx
    rw [← hpx]
    exact hpairs pr (by rw [hpp]; exact List.mem_cons_of_mem _ hpr)

/-- With enough fuel the augmenting loop ends in a state with no
augmenting path, while staying feasible and conserving. -/
theorem ekLoop_terminal (N : FlowNet) (s t : String)
    (hndV : N.verts.Nodup) (hs : s ∈ N.verts) (ht : t ∈ N.verts) (hst : s ≠ t) :
    ∀ (fuel : Nat) (f : FlowAssign), Feasible N f →
    (∀ x, x ≠ s → x ≠ t → netOut N f x = 0) →
    ((N.capSum : Int) < netOut N f s + fuel) →
    Feasible N (ekLoop N s t fuel f) ∧
    (∀ x, x ≠ s → x ≠ t → netOut N (ekLoop N s t fuel f) x = 0) ∧
    findAugPath N (ekLoop N s t fuel f) s t = none := by
  intro fuel
  induction fuel with
  | zero =>
    intro f hf hc hbound
    exfalso
    have := netOut_le_capSum hndV hf s
    omega
  | succ fuel ih =>
    intro f hf hc hbound
    cases hp : findAugPath N f s t with
    | none =>
      have hred : ekLoop N s t (fuel + 1) f = f := by
        rw [ekLoop, hp]
      rw [hred]
      exact ⟨hf, hc, hp⟩
    | some p =>
      obtain ⟨hhead, hlast, hnodup, hchain, hmemp⟩ := findAugPath_sound hp
      cases hpcons : p with
      | nil =>
        subst hpcons
        exact absurd hhead (by simp)
      | cons a tail =>
        subst hpcons
        have has : a = s := by simpa using hhead
        subst has
        cases htail : tail with
        | nil =>
          subst htail
          exfalso
          have : a = t := by simpa using hlast
          exact hst this
        | cons b tail' =>
          subst htail
          have hdpos : 0 < bottleneck N f (a :: b :: tail') := bottleneck_pos hchain
          have hred1 : ekLoop N a t (fuel + 1) f =
              if bottleneck N f (a :: b :: tail') = 0 then f
              else ekLoop N a t fuel
                (augment f (a :: b :: tail') (bottleneck N f (a :: b :: tail'))) := by
            rw [ekLoop, hp]
          have hred : ekLoop N a t (fuel + 1) f =
              ekLoop N a t fuel
                (augment f (a :: b :: tail') (bottleneck N f (a :: b :: tail'))) := by
            rw [hred1, if_neg (by omega)]
          rw [hred]
          have hmem' : ∀ y ∈ a :: b :: tail', y ∈ N.verts := by
            intro y hy
            rcases hmemp y hy with h | h
            · exact h ▸ hs
            · exact h
          have hfeas : Feasible N
              (augment f (a :: b :: tail') (bottleneck N f (a :: b :: tail'))) := by
            refine augment_feasible _ f hf hnodup ?_
            intro pr hpr
            exact bottleneck_le_resid hpr
          have haug := @netOut_augment N (bottleneck N f (a :: b :: tail'))
            (b :: tail') a f hndV hnodup hmem'
          have hcons : ∀ x, x ≠ a → x ≠ t →
              netOut N (augment f (a :: b :: tail')
                (bottleneck N f (a :: b :: tail'))) x = 0 := by
            intro x hxs hxt
            rw [haug x]
            rw [if_neg hxs, if_neg ?hlast]
            case hlast =>
              intro hx
              rw [hlast] at hx
              exact hxt (Option.some.inj hx)
            rw [hc x hxs hxt]
            ring
          have hval : netOut N (augment f (a :: b :: tail')
              (bottleneck N f (a :: b :: tail'))) a =
              netOut N f a + bottleneck N f (a :: b :: tail') := by
            rw [haug a]
            rw [if_pos rfl, if_neg ?hlast2]
            case hlast2 =>
              intro hx
              rw [hlast] at hx
              exact hst (Option.some.inj hx)
            ring
          refine ih _ hfeas hcons ?_
          rw [hval]
          omega

/-- The value returned by the solver dominates the value of every
feasible conserving flow: it is the maximum flow value. -/
theorem maximum_flow_value_max (N : FlowNet) (s t : String)
    (hndV : N.verts.Nodup) (hs : s ∈ N.verts) (ht : t ∈ N.verts) (hst : s ≠ t)
    (f' : FlowAssign) (hf' : Feasible N f')
    (hc' : ∀ x, x ≠ s → x ≠ t → netOut N f' x = 0) :
    netOut N f' s ≤ (maximum_flow N s t).1 := by
  obtain ⟨hfeas, hcons, hnopath⟩ := ekLoop_terminal N s t hndV hs ht hst
    (N.capSum + 1) (fun _ _ => 0)
    (fun u v => Nat.zero_le _)
    (by
      intro x _ _
      unfold netOut inflow outflow
      simp)
    (by
      push_cast
      have : netOut N (fun _ _ => 0) s = 0 := by
        unfold netOut inflow outflow
        simp
      omega)
  set g := ekLoop N s t (N.capSum + 1) (fun _ _ => 0) with hg
  obtain ⟨R, hsR, htR, hRsub, hRclosed⟩ := findAugPath_none_closed hndV hs hnopath
  set S := R.toFinset with hSdef
  have hS : S ⊆ Vfin N := by
    intro z hz
    rw [hSdef] at hz
    exact List.mem_toFinset.mpr (hRsub z (List.mem_toFinset.mp hz))
  have hsS : s ∈ S := List.mem_toFinset.mpr hsR
  have htS : t ∉ S := fun hc => htR (List.mem_toFinset.mp hc)
  have hsat : ∀ x ∈ S, ∀ y ∈ Vfin N \ S, g x y = N.cap x y ∧ g y x = 0 := by
    intro x hx y hy
    have hxR : x ∈ R := List.mem_toFinset.mp hx
    have hyV : y ∈ N.verts := List.mem_toFinset.mp (Finset.mem_sdiff.mp hy).1
    have hyR : y ∉ R := fun hc => (Finset.mem_sdiff.mp hy).2 (List.mem_toFinset.mpr hc)
    have hnot : y ∉ rsuccs N g x := fun hc => hyR (hRclosed x hxR y hc)
    have hresid : resid N g x y = 0 := by
      by_contra hres
      exact hnot (List.mem_filter.mpr ⟨hyV, by
        simp only [decide_eq_true_eq]
        omega⟩)
    unfold resid at hresid
    have hle := hfeas x y
    omega
  have heq : netOut N g s = capAcross N S :=
    value_eq_capAcross hndV hcons S hS hsS htS hsat
  have hle : netOut N f' s ≤ capAcross N S :=
    value_le_capAcross hndV hf' hc' S hS hsS htS
  show netOut N f' s ≤ netOut N g s
  omega

/-- Monotonicity of the solved value under pointwise capacity
increase on the same vertex set. -/
theorem maximum_flow_mono (N N' : FlowNet) (s t : String)
    (hverts : N'.verts = N.verts)
    (hcap : ∀ u v, N.cap u v ≤ N'.cap u v)
    (hndV : N.verts.Nodup) (hs : s ∈ N.verts) (ht : t ∈ N.verts) (hst : s ≠ t) :
    (maximum_flow N s t).1 ≤ (maximum_flow N' s t).1 := by
  set g := ekLoop N s t (N.capSum + 1) (fun _ _ => 0) with hg
  have hcomb := ekLoop_feasible_conserving N s t hndV hs ht (N.capSum + 1)
    (fun _ _ => 0)
    (fun u v => Nat.zero_le _)
    (by
      intro x _ _
      unfold netOut inflow outflow
      simp)
  have hfeas' : Feasible N' g := by
    intro u v
    exact le_trans (hcomb.1 u v) (hcap u v)
  have hnet : ∀ x, netOut N' g x = netOut N g x := by
    intro x
    unfold netOut inflow outflow
    rw [hverts]
  have hcons' : ∀ x, x ≠ s → x ≠ t → netOut N' g x = 0 := by
    intro x hxs hxt
    rw [hnet]
    exact hcomb.2 x hxs hxt
  have := maximum_flow_value_max N' s t (by rw [hverts]; exact hndV)
    (by rw [hverts]; exact hs) (by rw [hverts]; exact ht) hst g hfeas' hcons'
  show netOut N g s ≤ (maximum_flow N' s t).1
  rw [← hnet]
  exact this

theorem optLe_refl (o : Option Int) : optLe o o := by
  cases o with
  | none => exact Or.inl ⟨rfl, rfl⟩
  | some c => exact Or.inr ⟨c, c, rfl, rfl, le_refl c⟩

theorem forall2_append {α : Type} {R : α → α → Prop} :
    ∀ {l1 l1' l2 l2' : List α}, List.Forall₂ R l1 l1' → List.Forall₂ R l2 l2' →
    List.Forall₂ R (l1 ++ l2) (l1' ++ l2') := by
  intro l1 l1' l2 l2' h1 h2
  induction h1 with
  | nil => exact h2
  | cons hr _ ih => exact List.Forall₂.cons hr ih

theorem forall2_mem_right {α β : Type} {R : α → β → Prop} :
    ∀ {l : List α} {l' : List β}, List.Forall₂ R l l' →
    ∀ b ∈ l', ∃ a ∈ l, R a b := by
  intro l l' h
  induction h with
  | nil => intro b hb; cases hb
  | cons hr _ ih =>
    intro b hb
    rcases List.mem_cons.mp hb with hb | hb
    · exact ⟨_, List.mem_cons_self _ _, hb ▸ hr⟩
    · obtain ⟨a, ha, har⟩ := ih b hb
      exact ⟨a, List.mem_cons_of_mem _ ha, har⟩

theorem nodeRel_names {l l' : List (String × NodeAttrs)}
    (h : List.Forall₂ NodeRel l l') : l'.map Prod.fst = l.map Prod.fst := by
  induction h with
  | nil => rfl
  | cons hr _ ih =>
    simp only [List.map_cons, ih]
    rw [hr.1]

theorem edgeRel_keys {l l' : List (String × String × Option Int)}
    (h : List.Forall₂ EdgeRel l l') :
    l'.map (fun e => (e.1, e.2.1)) = l.map (fun e => (e.1, e.2.1)) := by
  induction h with
  | nil => rfl
  | cons hr _ ih =>
    simp only [List.map_cons, ih]
    rw [hr.1, hr.2.1]

theorem baseLe_nodeNames {B B' : DiGraph} (h : BaseLe B B') :
    nodeNames B' = nodeNames B :=
  nodeRel_names h.1

theorem baseLe_edgeKeys {B B' : DiGraph} (h : BaseLe B B') :
    edgeKeys B' = edgeKeys B :=
  edgeRel_keys h.2

theorem baseLe_WFBase {B B' : DiGraph} (h : BaseLe B B') (hWF : WFBase B) :
    WFBase B' := by
  obtain ⟨h1, h2, h3⟩ := hWF
  refine ⟨by rw [baseLe_nodeNames h]; exact h1,
          by rw [baseLe_edgeKeys h]; exact h2, ?_⟩
  intro e' he'
  obtain ⟨e, he, her⟩ := forall2_mem_right h.2 e' he'
  rw [baseLe_nodeNames h, ← her.1, ← her.2.1]
  exact h3 e he

theorem optLe_isSome {o o' : Option Int} (h : optLe o o') (hs : o.isSome) :
    o'.isSome := by
  rcases h with ⟨h1, _⟩ | ⟨c, c', _, h2, _⟩
  · rw [h1] at hs
    exact absurd hs (by simp)
  · rw [h2]
    rfl

theorem baseLe_AttrsOK {B B' : DiGraph} (h : BaseLe B B') (hA : AttrsOK B) :
    AttrsOK B' := by
  obtain ⟨hA1, hA2, hA3, hA4⟩ := hA
  refine ⟨?_, ?_, ?_, ?_⟩
  · intro p' hp'
    obtain ⟨p, hp, hr⟩ := forall2_mem_right h.1 p' hp'
    exact optLe_isSome hr.2.2.1 (hA1 p hp)
  · intro e' he'
    obtain ⟨e, he, hr⟩ := forall2_mem_right h.2 e' he'
    exact optLe_isSome hr.2.2 (hA2 e he)
  · intro p' hp' hk
    obtain ⟨p, hp, hr⟩ := forall2_mem_right h.1 p' hp'
    exact optLe_isSome hr.2.2.2.1 (hA3 p hp (by rw [hr.2.1]; exact hk))
  · intro p' hp' hk
    obtain ⟨p, hp, hr⟩ := forall2_mem_right h.1 p' hp'
    exact optLe_isSome hr.2.2.2.2 (hA4 p hp (by rw [hr.2.1]; exact hk))

theorem nodeRel_internal {l l' : List (String × NodeAttrs)}
    (h : List.Forall₂ NodeRel l l') :
    List.Forall₂ EdgeRel (internalEdges l) (internalEdges l') := by
  induction h with
  | nil => exact List.Forall₂.nil
  | cons hr htail ih =>
    rename_i p p' tl tl'
    refine List.Forall₂.cons ⟨?_, ?_, ?_⟩ ih
    · show in_name p.1 = in_name p'.1
      rw [hr.1]
    · show out_name p.1 = out_name p'.1
      rw [hr.1]
    · exact hr.2.2.1

theorem edgeRel_trans_block {l l' : List (String × String × Option Int)}
    (h : List.Forall₂ EdgeRel l l') :
    List.Forall₂ EdgeRel (transEdges l) (transEdges l') := by
  induction h with
  | nil => exact List.Forall₂.nil
  | cons hr htail ih =>
    rename_i e e' tl tl'
    refine List.Forall₂.cons ⟨?_, ?_, ?_⟩ ih
    · show out_name e.1 = out_name e'.1
      rw [hr.1]
    · show in_name e.2.1 = in_name e'.2.1
      rw [hr.2.1]
    · exact hr.2.2

theorem nodeRel_inj_block {l l' : List (String × NodeAttrs)}
    (h : List.Forall₂ NodeRel l l') :
    List.Forall₂ EdgeRel (injEdges l) (injEdges l') := by
  unfold injEdges
  induction h with
  | nil => exact List.Forall₂.nil
  | cons hr htail ih =>
    rename_i p p' tl tl'
    rw [List.filter_cons, List.filter_cons]
    by_cases hk : p.2.kind = some "source"
    · rw [if_pos (by simp [hk]), if_pos (by simp [← hr.2.1, hk])]
      simp only [List.map_cons]
      refine List.Forall₂.cons ?_ ih
      exact ⟨rfl, by show in_name p.1 = in_name p'.1; rw [hr.1], hr.2.2.2.1⟩
    · rw [if_neg (by simp [hk]), if_neg (by simp [← hr.2.1, hk])]
      exact ih

theorem nodeRel_ext_block {l l' : List (String × NodeAttrs)}
    (h : List.Forall₂ NodeRel l l') :
    List.Forall₂ EdgeRel (extEdges l) (extEdges l') := by
  unfold extEdges
  induction h with
  | nil => exact List.Forall₂.nil
  | cons hr htail ih =>
    rename_i p p' tl tl'
    rw [List.filter_cons, List.filter_cons]
    by_cases hk : p.2.kind = some "sink"
    · rw [if_pos (by simp [hk]), if_pos (by simp [← hr.2.1, hk])]
      simp only [List.map_cons]
      refine List.Forall₂.cons ?_ ih
      exact ⟨by show out_name p.1 = out_name p'.1; rw [hr.1], rfl, hr.2.2.2.2⟩
    · rw [if_neg (by simp [hk]), if_neg (by simp [← hr.2.1, hk])]
      exact ih

theorem baseLe_redEdges {B B' : DiGraph} (h : BaseLe B B') :
    List.Forall₂ EdgeRel (redEdges B) (redEdges B') := by
  exact forall2_append (forall2_append (forall2_append
    (nodeRel_internal h.1) (edgeRel_trans_block h.2))
    (nodeRel_inj_block h.1)) (nodeRel_ext_block h.1)

theorem edgeRel_arcs {es es' : List (String × String × Option Int)}
    (h : List.Forall₂ EdgeRel es es') :
    List.Forall₂ ArcRel (es.filterMap arcConv) (es'.filterMap arcConv) := by
  induction h with
  | nil => exact List.Forall₂.nil
  | cons hr htail ih =>
    rename_i e e' tl tl'
    obtain ⟨h1, h2, h3⟩ := hr
    rcases h3 with ⟨hn1, hn2⟩ | ⟨c, c', hc1, hc2, hcle⟩
    · have hcv1 : arcConv e = none := by
        unfold arcConv
        rw [hn1]
        rfl
      have hcv2 : arcConv e' = none := by
        unfold arcConv
        rw [hn2]
        rfl
      rw [List.filterMap_cons, List.filterMap_cons, hcv1, hcv2]
      exact ih
    · have hcv1 : arcConv e = some (e.1, e.2.1, c.toNat) := by
        unfold arcConv
        rw [hc1]
        rfl
      have hcv2 : arcConv e' = some (e'.1, e'.2.1, c'.toNat) := by
        unfold arcConv
        rw [hc2]
        rfl
      rw [List.filterMap_cons, List.filterMap_cons, hcv1, hcv2]
      refine List.Forall₂.cons ?_ ih
      exact ⟨h1, h2, Int.toNat_le_toNat hcle⟩

theorem arcRel_cap_mono {arcs arcs' : List (String × String × Nat)}
    (h : List.Forall₂ ArcRel arcs arcs') (verts verts' : List String) :
    ∀ u v, FlowNet.cap ⟨verts, arcs⟩ u v ≤ FlowNet.cap ⟨verts', arcs'⟩ u v := by
  induction h with
  | nil =>
    intro u v
    exact le_refl 0
  | cons hr htail ih =>
    rename_i a a' tl tl'
    intro u v
    rw [cap_cons, cap_cons]
    obtain ⟨h1, h2, h3⟩ := hr
    by_cases hk : a.1 = u ∧ a.2.1 = v
    · rw [if_pos hk, if_pos (by rw [← h1, ← h2]; exact hk)]
      exact Nat.add_le_add h3 (ih u v)
    · rw [if_neg hk, if_neg (by rw [← h1, ← h2]; exact hk)]
      exact Nat.add_le_add (le_refl 0) (ih u v)

theorem splitNames_nodup {ns : List (String × NodeAttrs)}
    (h : (ns.map Prod.fst).Nodup) :
    ((splitNodes ns).map Prod.fst).Nodup := by
  rw [splitNodes_names]
  induction ns with
  | nil => simp
  | cons p tl ih =>
    rw [List.flatMap_cons]
    rw [List.nodup_append]
    have hp_notin : p.1 ∉ tl.map Prod.fst := (List.nodup_cons.mp h).1
    refine ⟨?_, ih (List.nodup_cons.mp h).2, ?_⟩
    · simp [List.nodup_cons]
      exact in_name_ne_out_name p.1 p.1
    · intro z hz hz'
      obtain ⟨q, hq, hzq⟩ := List.mem_flatMap.mp hz'
      have hq1 : q.1 ∈ tl.map Prod.fst := List.mem_map_of_mem Prod.fst hq
      simp at hz hzq
      rcases hz with hz | hz <;> rcases hzq with hzq | hzq
      · rw [hz] at hzq
        exact hp_notin ((in_name_inj hzq.symm) ▸ hq1)
      · rw [hz] at hzq
        exact (in_name_ne_out_name p.1 q.1) hzq.symm.symm
      · rw [hz] at hzq
        exact (in_name_ne_out_name q.1 p.1) hzq.symm
      · rw [hz] at hzq
        exact hp_notin ((out_name_inj hzq.symm) ▸ hq1)

theorem redNames_nodup {B : DiGraph} (hnd : (nodeNames B).Nodup) :
    ((redNodes B).map Prod.fst).Nodup := by
  have hsplit := splitNames_nodup hnd
  show (super_source :: super_sink :: (splitNodes B.nodes).map Prod.fst).Nodup
  rw [List.nodup_cons, List.nodup_cons]
  refine ⟨?_, ?_, hsplit⟩
  · intro hc
    rcases List.mem_cons.mp hc with hc | hc
    · exact super_source_ne_super_sink hc
    · rw [splitNodes_names] at hc
      obtain ⟨q, _, hq⟩ := List.mem_flatMap.mp hc
      simp at hq
      rcases hq with hq | hq
      · exact (super_source_ne_in_name q.1) hq
      · exact (super_source_ne_out_name q.1) hq
  · intro hc
    rw [splitNodes_names] at hc
    obtain ⟨q, _, hq⟩ := List.mem_flatMap.mp hc
    simp at hq
    rcases hq with hq | hq
    · exact (super_sink_ne_in_name q.1) hq
    · exact (super_sink_ne_out_name q.1) hq

theorem nodeRel_split_names {l l' : List (String × NodeAttrs)}
    (h : List.Forall₂ NodeRel l l') :
    l'.flatMap (fun p => [in_name p.1, out_name p.1]) =
    l.flatMap (fun p => [in_name p.1, out_name p.1]) := by
  induction h with
  | nil => rfl
  | cons hr _ ih =>
    rw [List.flatMap_cons, List.flatMap_cons, ih]
    rw [hr.1]

theorem baseLe_redVerts {B B' : DiGraph} (h : BaseLe B B') :
    (redNodes B').map Prod.fst = (redNodes B).map Prod.fst := by
  show super_source :: super_sink :: (splitNodes B'.nodes).map Prod.fst =
    super_source :: super_sink :: (splitNodes B.nodes).map Prod.fst
  rw [splitNodes_names, splitNodes_names]
  congr 1
  congr 1
  exact nodeRel_split_names h.1

/-- The demo value never decreases when base capacities grow. -/
theorem demo_value_mono (B B' : DiGraph) (hle : BaseLe B B')
    (hWF : WFBase B) (hA : AttrsOK B) :
    ∃ val val', demo_flow_value B = .ok val ∧
      demo_flow_value B' = .ok val' ∧ val ≤ val' := by
  have hWF' := baseLe_WFBase hle hWF
  have hA' := baseLe_AttrsOK hle hA
  have hch := build_ok_char B hWF hA
  have hch' := build_ok_char B' hWF' hA'
  set F : DiGraph := { nodes := redNodes B, edges := redEdges B } with hF
  set F' : DiGraph := { nodes := redNodes B', edges := redEdges B' } with hF'
  have hv1 : demo_flow_value B =
      .ok (maximum_flow F.toFlowNet super_source super_sink).1 := by
    simp [demo_flow_value, solve_base, hch, Except.map]
  have hv2 : demo_flow_value B' =
      .ok (maximum_flow F'.toFlowNet super_source super_sink).1 := by
    simp [demo_flow_value, solve_base, hch', Except.map]
  refine ⟨_, _, hv1, hv2, ?_⟩
  refine maximum_flow_mono F.toFlowNet F'.toFlowNet super_source super_sink
    ?_ ?_ ?_ ?_ ?_ super_source_ne_super_sink
  · exact baseLe_redVerts hle
  · intro u v
    exact arcRel_cap_mono (edgeRel_arcs (baseLe_redEdges hle)) _ _ u v
  · exact redNames_nodup hWF.1
  · show super_source ∈ (redNodes B).map Prod.fst
    exact List.mem_cons_self _ _
  · show super_sink ∈ (redNodes B).map Prod.fst
    exact List.mem_cons_of_mem _ (List.mem_cons_self _ _)

theorem optLe_map_add (o : Option Int) (δ : Nat) :
    optLe o (o.map (fun c => c + (δ : Int))) := by
  cases o with
  | none => exact Or.inl ⟨rfl, rfl⟩
  | some c =>
    refine Or.inr ⟨c, c + δ, rfl, rfl, ?_⟩
    omega

theorem nodeRel_refl (p : String × NodeAttrs) : NodeRel p p :=
  ⟨rfl, rfl, optLe_refl _, optLe_refl _, optLe_refl _⟩

theorem edgeRel_refl (e : String × String × Option Int) : EdgeRel e e :=
  ⟨rfl, rfl, optLe_refl _⟩

theorem bump_edge_baseLe (B : DiGraph) (u v : String) (δ : Nat) :
    BaseLe B (bump_edge_capacity B u v δ) := by
  constructor
  · exact List.forall₂_same.mpr (fun p _ => nodeRel_refl p)
  · show List.Forall₂ EdgeRel B.edges (B.edges.map _)
    rw [List.forall₂_map_right_iff]
    refine List.forall₂_same.mpr ?_
    intro e _
    by_cases hk : e.1 = u ∧ e.2.1 = v
    · rw [if_pos hk]
      exact ⟨rfl, rfl, optLe_map_add e.2.2 δ⟩
    · rw [if_neg hk]
      exact edgeRel_refl e

theorem bump_node_baseLe (B : DiGraph) (n : String) (δ : Nat) :
    BaseLe B (bump_node_capacity B n δ) := by
  constructor
  · show List.Forall₂ NodeRel B.nodes (B.nodes.map _)
    rw [List.forall₂_map_right_iff]
    refine List.forall₂_same.mpr ?_
    intro p _
    by_cases hk : p.1 = n
    · rw [if_pos hk]
      exact ⟨rfl, rfl, optLe_map_add _ δ, optLe_refl _, optLe_refl _⟩
    · rw [if_neg hk]
      exact nodeRel_refl p
  · exact List.forall₂_same.mpr (fun e _ => edgeRel_refl e)

theorem bump_production_baseLe (B : DiGraph) (n : String) (δ : Nat) :
    BaseLe B (bump_production_capacity B n δ) := by
  constructor
  · show List.Forall₂ NodeRel B.nodes (B.nodes.map _)
    rw [List.forall₂_map_right_iff]
    refine List.forall₂_same.mpr ?_
    intro p _
    by_cases hk : p.1 = n
    · rw [if_pos hk]
      exact ⟨rfl, rfl, optLe_refl _, optLe_map_add _ δ, optLe_refl _⟩
    · rw [if_neg hk]
      exact nodeRel_refl p
  · exact List.forall₂_same.mpr (fun e _ => edgeRel_refl e)

theorem bump_demand_baseLe (B : DiGraph) (n : String) (δ : Nat) :
    BaseLe B (bump_demand B n δ) := by
  constructor
  · show List.Forall₂ NodeRel B.nodes (B.nodes.map _)
    rw [List.forall₂_map_right_iff]
    refine List.forall₂_same.mpr ?_
    intro p _
    by_cases hk : p.1 = n
    · rw [if_pos hk]
      exact ⟨rfl, rfl, optLe_refl _, optLe_refl _, optLe_map_add _ δ⟩
    · rw [if_neg hk]
      exact nodeRel_refl p
  · exact List.forall₂_same.mpr (fun e _ => edgeRel_refl e)

/-- C7: increasing any single capacity of the input network — an edge
capacity, a node capacity, a source's production capacity or a sink's
demand — while holding everything else fixed never decreases the
max-flow value computed by transforming and solving. -/
theorem claim_C7 (B : DiGraph) (hWF : WFBase B) (hA : AttrsOK B) (δ : Nat) :
    (∀ u v, ∃ val val', demo_flow_value B = .ok val ∧
      demo_flow_value (bump_edge_capacity B u v δ) = .ok val' ∧ val ≤ val') ∧
    (∀ n, ∃ val val', demo_flow_value B = .ok val ∧
      demo_flow_value (bump_node_capacity B n δ) = .ok val' ∧ val ≤ val') ∧
    (∀ n, ∃ val val', demo_flow_value B = .ok val ∧
      demo_flow_value (bump_production_capacity B n δ) = .ok val' ∧ val ≤ val') ∧
    (∀ n, ∃ val val', demo_flow_value B = .ok val ∧
      demo_flow_value (bump_demand B n δ) = .ok val' ∧ val ≤ val') :=
  ⟨fun u v => demo_value_mono B _ (bump_edge_baseLe B u v δ) hWF hA,
   fun n => demo_value_mono B _ (bump_node_baseLe B n δ) hWF hA,
   fun n => demo_value_mono B _ (bump_production_baseLe B n δ) hWF hA,
   fun n => demo_value_mono B _ (bump_demand_baseLe B n δ) hWF hA⟩

/-- C7 witness: capacity bumps of 1000 on the fixed example network. -/
theorem claim_C7_witness :
    (∀ u v, ∃ val val', demo_flow_value build_random_gas_network = .ok val ∧
      demo_flow_value (bump_edge_capacity build_random_gas_network u v 1000) = .ok val' ∧
      val ≤ val') ∧
    (∀ n, ∃ val val', demo_flow_value build_random_gas_network = .ok val ∧
      demo_flow_value (bump_node_capacity build_random_gas_network n 1000) = .ok val' ∧
      val ≤ val') ∧
    (∀ n, ∃ val val', demo_flow_value build_random_gas_network = .ok val ∧
      demo_flow_value (bump_production_capacity build_random_gas_network n 1000) = .ok val' ∧
      val ≤ val') ∧
    (∀ n, ∃ val val', demo_flow_value build_random_gas_network = .ok val ∧
      demo_flow_value (bump_demand build_random_gas_network n 1000) = .ok val' ∧
      val ≤ val') :=
  claim_C7 build_random_gas_network ⟨by decide, by decide, by decide⟩
    ⟨by decide, by decide, by decide, by decide⟩ 1000
